import Mathlib

/-!
Verification of the `Energy_Relaxation` micromagnetic relaxation engine.

The repository contains two variants of the same engine:
* a vector variant (`src/magnetic_moments.rs`, compiled through `src/main.rs`),
  where each site carries a 3-component magnetization vector that is
  renormalized after every update, and
* a scalar variant (`src/grid.rs`, not reachable from `main.rs`; its physical
  constants are not defined anywhere under `src/`), where each site carries a
  single scalar that is clamped to `[-1, 1]` after every update.

Floating-point numbers are modelled by real numbers.  Array indexing and
index assignment are modelled in the `Option` monad: an out-of-bounds access
returns `none`, mirroring the Rust panic.  The module-level physical
constants are modelled as an explicit record of parameters (the spec treats
them as external configuration supplied once; for `grid.rs` they are not
present in the sources at all), and `mainConsts` records the concrete values
from `src/main.rs`.
-/

set_option maxHeartbeats 1000000
set_option linter.unusedVariables false

noncomputable section

namespace EnergyRelaxation

/-- A 3-component real vector, modelling the `Array1<f64>` values of length 3
used for magnetizations and fields in `magnetic_moments.rs`. -/
structure Vec3 where
  x : ℝ
  y : ℝ
  z : ℝ

namespace Vec3

@[ext] theorem ext' {a b : Vec3} (hx : a.x = b.x) (hy : a.y = b.y) (hz : a.z = b.z) :
    a = b := by
  cases a; cases b; simp_all

instance : Zero Vec3 := ⟨⟨0, 0, 0⟩⟩

instance : Add Vec3 := ⟨fun a b => ⟨a.x + b.x, a.y + b.y, a.z + b.z⟩⟩

instance : Sub Vec3 := ⟨fun a b => ⟨a.x - b.x, a.y - b.y, a.z - b.z⟩⟩

instance : SMul ℝ Vec3 := ⟨fun r v => ⟨r * v.x, r * v.y, r * v.z⟩⟩

/-- Componentwise division of a vector by a scalar (`Array1 / f64` in ndarray). -/
def sdiv (v : Vec3) (r : ℝ) : Vec3 := ⟨v.x / r, v.y / r, v.z / r⟩

/-- Dot product (`Array1::dot`). -/
def dot (a b : Vec3) : ℝ := a.x * b.x + a.y * b.y + a.z * b.z

/-- Cross product, written componentwise exactly as in
`compute_magnetization_change`. -/
def cross (a b : Vec3) : Vec3 :=
  ⟨a.y * b.z - a.z * b.y, a.z * b.x - a.x * b.z, a.x * b.y - a.y * b.x⟩

/-- The components of the vector in order (an `Array1` of length 3). -/
def toList (v : Vec3) : List ℝ := [v.x, v.y, v.z]

@[simp] theorem zero_x : (0 : Vec3).x = 0 := rfl
@[simp] theorem zero_y : (0 : Vec3).y = 0 := rfl
@[simp] theorem zero_z : (0 : Vec3).z = 0 := rfl
@[simp] theorem add_x (a b : Vec3) : (a + b).x = a.x + b.x := rfl
@[simp] theorem add_y (a b : Vec3) : (a + b).y = a.y + b.y := rfl
@[simp] theorem add_z (a b : Vec3) : (a + b).z = a.z + b.z := rfl
@[simp] theorem sub_x (a b : Vec3) : (a - b).x = a.x - b.x := rfl
@[simp] theorem sub_y (a b : Vec3) : (a - b).y = a.y - b.y := rfl
@[simp] theorem sub_z (a b : Vec3) : (a - b).z = a.z - b.z := rfl
@[simp] theorem smul_x (r : ℝ) (v : Vec3) : (r • v).x = r * v.x := rfl
@[simp] theorem smul_y (r : ℝ) (v : Vec3) : (r • v).y = r * v.y := rfl
@[simp] theorem smul_z (r : ℝ) (v : Vec3) : (r • v).z = r * v.z := rfl
@[simp] theorem sdiv_x (v : Vec3) (r : ℝ) : (v.sdiv r).x = v.x / r := rfl
@[simp] theorem sdiv_y (v : Vec3) (r : ℝ) : (v.sdiv r).y = v.y / r := rfl
@[simp] theorem sdiv_z (v : Vec3) (r : ℝ) : (v.sdiv r).z = v.z / r := rfl
@[simp] theorem mk_x (a b c : ℝ) : (Vec3.mk a b c).x = a := rfl
@[simp] theorem mk_y (a b c : ℝ) : (Vec3.mk a b c).y = b := rfl
@[simp] theorem mk_z (a b c : ℝ) : (Vec3.mk a b c).z = c := rfl

@[simp] theorem zero_add (v : Vec3) : (0 : Vec3) + v = v := by ext <;> simp
@[simp] theorem add_zero (v : Vec3) : v + (0 : Vec3) = v := by ext <;> simp

theorem dot_self_nonneg (v : Vec3) : 0 ≤ v.dot v := by
  unfold dot
  nlinarith [sq_nonneg v.x, sq_nonneg v.y, sq_nonneg v.z]

theorem dot_self_eq_zero_iff (v : Vec3) : v.dot v = 0 ↔ v = 0 := by
  constructor
  · intro h
    unfold dot at h
    have hx : v.x = 0 := by nlinarith [sq_nonneg v.x, sq_nonneg v.y, sq_nonneg v.z]
    have hy : v.y = 0 := by nlinarith [sq_nonneg v.x, sq_nonneg v.y, sq_nonneg v.z]
    have hz : v.z = 0 := by nlinarith [sq_nonneg v.x, sq_nonneg v.y, sq_nonneg v.z]
    ext <;> simp [hx, hy, hz]
  · intro h; subst h; simp [dot]

end Vec3

/-! ### List helpers: checked indexing and per-index update loops -/

/-- Checked index assignment: `l[i] = v` in Rust panics when `i` is out of
bounds; here the assignment returns `none` in that case. -/
def setChecked {A : Type} (l : List A) (i : ℕ) (v : A) : Option (List A) :=
  if i < l.length then some (l.set i v) else none

theorem setChecked_of_lt {A : Type} (l : List A) (i : ℕ) (v : A)
    (h : i < l.length) : setChecked l i v = some (l.set i v) := by
  simp [setChecked, h]

theorem get?_of_lt {A : Type} (l : List A) (i : ℕ) (d : A) (h : i < l.length) :
    l.get? i = some (l.getD i d) := by
  rw [List.get?_eq_getElem?, List.getElem?_eq_getElem h, List.getD_eq_getElem l d h]

theorem getD_set_self {A : Type} (l : List A) (i : ℕ) (v d : A) (h : i < l.length) :
    (l.set i v).getD i d = v := by
  have h' : i < (l.set i v).length := by rw [List.length_set]; exact h
  rw [List.getD_eq_getElem _ d h', List.getElem_set_self]

theorem getD_set_ne {A : Type} (l : List A) (i j : ℕ) (v d : A) (h : i ≠ j) :
    (l.set i v).getD j d = l.getD j d := by
  by_cases hj : j < l.length
  · have hj' : j < (l.set i v).length := by rw [List.length_set]; exact hj
    rw [List.getD_eq_getElem _ d hj', List.getElem_set_ne h, List.getD_eq_getElem l d hj]
  · push_neg at hj
    have hj' : (l.set i v).length ≤ j := by rw [List.length_set]; exact hj
    rw [List.getD_eq_default _ d hj', List.getD_eq_default l d hj]

theorem getD_replicate' {A : Type} (n i : ℕ) (a d : A) (h : i < n) :
    (List.replicate n a).getD i d = a := by
  have h' : i < (List.replicate n a).length := by rw [List.length_replicate]; exact h
  rw [List.getD_eq_getElem _ d h', List.getElem_replicate]

/-- A loop `for i in idxs { h[i] = h[i] + f(i) }`, with checked index
accesses; this is the shape of all three contribution loops inside
`compute_effective_field` in both variants. -/
def addLoop {A : Type} [Add A] (f : ℕ → Option A) : List ℕ → List A → Option (List A)
  | [], h => some h
  | i :: is, h =>
    (h.get? i).bind fun hi =>
      (f i).bind fun w =>
        (setChecked h i (hi + w)).bind fun h' =>
          addLoop f is h'

@[simp] theorem addLoop_nil {A : Type} [Add A] (f : ℕ → Option A) (h : List A) :
    addLoop f [] h = some h := rfl

theorem addLoop_cons {A : Type} [Add A] (f : ℕ → Option A) (i : ℕ)
    (is : List ℕ) (h : List A) :
    addLoop f (i :: is) h =
      (h.get? i).bind fun hi =>
        (f i).bind fun w =>
          (setChecked h i (hi + w)).bind fun h' =>
            addLoop f is h' := rfl

/-- Characterization of `addLoop` over a contiguous index range: it succeeds
and adds `g j` to each cell `j` of the range, leaving the other cells alone. -/
theorem addLoop_spec {A : Type} [Add A] (d : A) (f : ℕ → Option A) (g : ℕ → A) :
    ∀ (n a : ℕ) (h : List A),
      (∀ i, a ≤ i → i < a + n → f i = some (g i)) →
      (∀ i, a ≤ i → i < a + n → i < h.length) →
      ∃ h', addLoop f (List.range' a n) h = some h' ∧ h'.length = h.length ∧
        ∀ j, j < h.length →
          h'.getD j d = if a ≤ j ∧ j < a + n then h.getD j d + g j else h.getD j d := by
  intro n
  induction n with
  | zero =>
    intro a h _ _
    refine ⟨h, by simp [List.range'], rfl, ?_⟩
    intro j _
    rw [if_neg (by omega)]
  | succ m ih =>
    intro a h hf hlen
    have ha : a < h.length := hlen a (le_refl a) (by omega)
    have hfa : f a = some (g a) := hf a (le_refl a) (by omega)
    have hrange : List.range' a (m + 1) = a :: List.range' (a + 1) m := rfl
    set h1 := h.set a (h.getD a d + g a) with hh1
    have hlen1 : h1.length = h.length := by simp [hh1]
    obtain ⟨h', hrun, hlen', hpt⟩ :=
      ih (a + 1) h1 (fun i h1i h2i => hf i (by omega) (by omega))
        (fun i h1i h2i => by rw [hlen1]; exact hlen i (by omega) (by omega))
    refine ⟨h', ?_, by rw [hlen', hlen1], ?_⟩
    · rw [hrange, addLoop_cons, get?_of_lt h a d ha, Option.some_bind, hfa,
        Option.some_bind, setChecked_of_lt h a _ ha, Option.some_bind]
      exact hrun
    · intro j hj
      have hj1 : j < h1.length := by rw [hlen1]; exact hj
      rcases eq_or_ne j a with rfl | hne
      · rw [hpt j hj1, if_neg (by omega), hh1, getD_set_self h j _ d ha,
          if_pos ⟨le_refl j, by omega⟩]
      · rw [hpt j hj1, hh1, getD_set_ne h a j _ d (Ne.symm hne)]
        by_cases hcase : a + 1 ≤ j ∧ j < a + 1 + m
        · rw [if_pos hcase, if_pos (by omega)]
        · rw [if_neg hcase, if_neg (by omega)]

/-- 64-bit wrap-around subtraction, modelling `usize` subtraction in release
mode (`self.size - 1` underflows to `2^64 - 1` when `size == 0`). -/
def usizeSub (a b : ℕ) : ℕ := (a + 2 ^ 64 - b) % 2 ^ 64

theorem usizeSub_one (a : ℕ) (h1 : 1 ≤ a) (h2 : a < 2 ^ 64) :
    usizeSub a 1 = a - 1 := by
  unfold usizeSub
  have : a + 2 ^ 64 - 1 = (a - 1) + 2 ^ 64 := by omega
  rw [this, Nat.add_mod_right, Nat.mod_eq_of_lt (by omega)]

theorem usizeSub_zero_one : usizeSub 0 1 = 2 ^ 64 - 1 := by
  unfold usizeSub
  norm_num

/-- Terminal status of the convergence loop (the source reports the same two
outcomes through `println!`). -/
inductive Status where
  | converged (iters : ℕ)
  | maxIterationsReached
  deriving DecidableEq

/-- The convergence loop shared verbatim by `minimize_energy` in both
variants: run `step` until it reports `max_change < tol`, or until the
iteration budget is exhausted.  The first argument is the 0-based iteration
counter `iter`, the second the remaining number of iterations. -/
def loopFrom {σ : Type} (step : σ → Option (σ × ℝ)) (tol : ℝ) :
    ℕ → ℕ → σ → Option (σ × Status)
  | _, 0, s => some (s, Status.maxIterationsReached)
  | iter, fuel + 1, s =>
    (step s).bind fun r =>
      if r.2 < tol then some (r.1, Status.converged iter)
      else loopFrom step tol (iter + 1) fuel r.1

/-- State after running `step` a given number of times. -/
def stepN {σ : Type} (step : σ → Option (σ × ℝ)) : ℕ → σ → Option σ
  | 0, s => some s
  | n + 1, s => (step s).bind fun r => stepN step n r.1

/-- The `max_change` value reported by the run of `step` that follows `n`
previous runs. -/
def mcAt {σ : Type} (step : σ → Option (σ × ℝ)) (n : ℕ) (s : σ) : Option ℝ :=
  (stepN step n s).bind fun s' => (step s').map Prod.snd

/-! ## Vector variant: `src/magnetic_moments.rs` -/

namespace MagneticMoments

open EnergyRelaxation

/-- The physical constants imported by `magnetic_moments.rs` from the crate
root (`src/main.rs`).  The spec treats them as immutable configuration
supplied once, so they are parameters of the model; `mainConsts` below is the
assignment appearing in `src/main.rs`. -/
structure VecConsts where
  /-- `MAGNETIC_EXCHANGE_CONSTANT` -/
  A : ℝ
  /-- `SATURATION_MAGNETIZATION` -/
  Ms : ℝ
  /-- `PERMEABILITY_OF_FREE_SPACE` -/
  mu0 : ℝ
  /-- `SPATIAL_DISCRETION_STEP` -/
  dx : ℝ
  /-- `UNIAXIAL_ANISOTROPY_CONSTANT` -/
  Ku : ℝ
  /-- `EASY_AXIS` -/
  easyAxis : Vec3
  /-- `EXTERNAL_FIELD` -/
  hext : Vec3
  /-- `TIME_STEP` -/
  dt : ℝ
  /-- `DAMPING_CONSTANT` -/
  alpha : ℝ
  /-- `GILBERT_GYROMAGNETIC_RATIO` -/
  gamma : ℝ
  /-- `MAX_ITERATIONS_NUMBER` -/
  maxIter : ℕ
  /-- `TOLERANCE` -/
  tol : ℝ

/-- The constant values defined in `src/main.rs`. -/
def mainConsts : VecConsts where
  A := 2.1e-11
  Ms := 1.71e6
  mu0 := 4 * Real.pi * 1.0e-7
  dx := 1.0e-9
  Ku := 4.8e4
  easyAxis := ⟨1, 0, 0⟩
  hext := ⟨0, 0, 0.5⟩
  dt := 1e-15
  alpha := 0.2
  gamma := 1.83e10
  maxIter := 10000
  tol := 1e-6

/-- The `MicromagneticSystem` struct of `magnetic_moments.rs`. -/
structure MicromagneticSystem where
  magnetizations : List Vec3
  size : ℕ

/-- The struct invariant established by `MicromagneticSystem::new`: the
vector of magnetizations has `size` entries. -/
def WF (s : MicromagneticSystem) : Prop := s.magnetizations.length = s.size

/-- The exchange contribution added to `h_eff[i]` for an interior site
(`magnetic_moments.rs` lines 60-67), as a function of `m[i+1]`, `m[i]`,
`m[i-1]`. -/
def exchVal (c : VecConsts) (mp mi mm : Vec3) : Vec3 :=
  Vec3.sdiv ((2 * c.A / (c.Ms * c.mu0)) • (mp - (2:ℝ) • mi + mm)) (c.dx * c.dx)

/-- The anisotropy contribution added to `h_eff[i]`
(`magnetic_moments.rs` lines 76-87). -/
def anisoVal (c : VecConsts) (mi : Vec3) : Vec3 :=
  (2 * c.Ku * (mi.dot c.easyAxis) / (c.Ms * c.mu0)) • c.easyAxis

/-- The Zeeman contribution added to `h_eff[i]`
(`magnetic_moments.rs` lines 95-98). -/
def zeeVal (c : VecConsts) : Vec3 := Vec3.sdiv c.hext c.mu0

/-- `MicromagneticSystem::compute_effective_field`.  The exchange loop runs
over `1..(self.size - 1)` where the subtraction is on `usize`, so for
`size == 0` the bound underflows and the first out-of-bounds access aborts
the computation (`none`). -/
def compute_effective_field (c : VecConsts) (s : MicromagneticSystem) :
    Option (List Vec3) :=
  (addLoop (fun i =>
      (s.magnetizations.get? (i + 1)).bind fun mp =>
        (s.magnetizations.get? i).bind fun mi =>
          (s.magnetizations.get? (i - 1)).bind fun mm =>
            some (exchVal c mp mi mm))
    (List.range' 1 (usizeSub s.size 1 - 1)) (List.replicate s.size 0)).bind fun h1 =>
  (addLoop (fun i =>
      (s.magnetizations.get? i).bind fun mi =>
        some (anisoVal c mi))
    (List.range' 0 s.size) h1).bind fun h2 =>
  addLoop (fun _ => some (zeeVal c)) (List.range' 0 s.size) h2

/-- The per-site update `-DAMPING_CONSTANT * GILBERT_GYROMAGNETIC_RATIO *
h_eff[i] * SATURATION_MAGNETIZATION` of `relaxation_step`. -/
def chVal (c : VecConsts) (hi : Vec3) : Vec3 :=
  c.Ms • (((-c.alpha) * c.gamma) • hi)

/-- `change.iter().map(|&x| x.abs()).fold(0.0, f64::max)`. -/
def vecMaxAbs (v : Vec3) : ℝ := max (max (max 0 |v.x|) |v.y|) |v.z|

/-- The per-site loop body of `relaxation_step`: compute the change, update
`max_change`, add the change in place, then renormalize in place. -/
def relaxLoop (c : VecConsts) (h : List Vec3) :
    List ℕ → List Vec3 × ℝ → Option (List Vec3 × ℝ)
  | [], st => some st
  | i :: is, st =>
    (h.get? i).bind fun hi =>
      let ch := chVal c hi
      let mc' := max st.2 (vecMaxAbs ch)
      (st.1.get? i).bind fun mi =>
        (setChecked st.1 i (mi + ch)).bind fun m1 =>
          (m1.get? i).bind fun upd =>
            let nrm := Real.sqrt (upd.dot upd)
            (setChecked m1 i (Vec3.sdiv upd nrm)).bind fun m2 =>
              relaxLoop c h is (m2, mc')

/-- `MicromagneticSystem::relaxation_step`. -/
def relaxation_step (c : VecConsts) (s : MicromagneticSystem) :
    Option (MicromagneticSystem × ℝ) :=
  (compute_effective_field c s).bind fun h =>
    (relaxLoop c h (List.range' 0 s.size) (s.magnetizations, 0)).bind fun st =>
      some ({ magnetizations := st.1, size := s.size }, st.2)

/-- `MicromagneticSystem::minimize_energy`. -/
def minimize_energy (c : VecConsts) (s : MicromagneticSystem) :
    Option (MicromagneticSystem × Status) :=
  loopFrom (relaxation_step c) c.tol 0 c.maxIter s

/-- `MicromagneticSystem::get_magnetizations` (returns a clone of the moment
array). -/
def get_magnetizations (s : MicromagneticSystem) : List Vec3 :=
  s.magnetizations

/-- The Landau-Lifshitz-Gilbert time derivative computed in the loop body of
`compute_magnetization_change`. -/
def llgVal (c : VecConsts) (mi hi : Vec3) : Vec3 :=
  ((-c.gamma) / (1 + c.alpha ^ 2)) • (mi.cross hi + c.alpha • (mi.cross (mi.cross hi)))

/-- The loop of `compute_magnetization_change`, carrying the two arrays
(`partial_derivative...` and `magnetization_change`) it writes. -/
def mchLoop (c : VecConsts) (m h : List Vec3) :
    List ℕ → List Vec3 × List Vec3 → Option (List Vec3 × List Vec3)
  | [], st => some st
  | i :: is, st =>
    (m.get? i).bind fun mi =>
      (h.get? i).bind fun hi =>
        (setChecked st.1 i (llgVal c mi hi)).bind fun pd =>
          (pd.get? i).bind fun pdv =>
            (setChecked st.2 i (c.dt • pdv)).bind fun ch =>
              mchLoop c m h is (pd, ch)

/-- `MicromagneticSystem::compute_magnetization_change`. -/
def compute_magnetization_change (c : VecConsts) (s : MicromagneticSystem) :
    Option (List Vec3) :=
  (compute_effective_field c s).bind fun h =>
    (mchLoop c s.magnetizations h (List.range' 0 s.size)
        (List.replicate s.size 0, List.replicate s.size 0)).bind fun st =>
      some st.2

/-- The loop of `compute_energy_change`: each iteration *overwrites* the
accumulator `energy_change` with the current site's value. -/
def ecLoop (c : VecConsts) (m h ch : List Vec3) : List ℕ → ℝ → Option ℝ
  | [], e => some e
  | i :: is, _ =>
    (m.get? i).bind fun _ =>
      (h.get? i).bind fun hi =>
        (ch.get? i).bind fun chi =>
          ecLoop c m h ch is (-(hi.dot chi) * c.Ms * c.mu0)

/-- `MicromagneticSystem::compute_energy_change`. -/
def compute_energy_change (c : VecConsts) (s : MicromagneticSystem) : Option ℝ :=
  (compute_magnetization_change c s).bind fun ch =>
    (compute_effective_field c s).bind fun h =>
      ecLoop c s.magnetizations h ch (List.range' 0 s.size) 0

end MagneticMoments

/-! ## Scalar variant: `src/grid.rs` -/

namespace Grid

open EnergyRelaxation

/-- Modelled from the spec: the crate-level constants imported by
`src/grid.rs` (`EXCHANGE_STIFFNESS_CONSTANT`, `GYROMAGNETIC_RATIO`,
`SATURATION_MAGNETIZATION`, ...) are not defined anywhere under `src/`
(`src/main.rs` does not declare a `grid` module).  The spec's
`PhysicalConstants` section describes them as an immutable configuration
record supplied once and treated as trusted input, so they are modelled as
parameters.  `easyAxis0` stands for `EASY_AXIS[0]`, the only component
`grid.rs` reads; `hext` is the scalar `EXTERNAL_FIELD` of this variant. -/
structure GridConsts where
  A : ℝ
  Ms : ℝ
  dx : ℝ
  Ku : ℝ
  easyAxis0 : ℝ
  hext : ℝ
  alpha : ℝ
  gamma : ℝ
  maxIter : ℕ
  tol : ℝ

/-- The `MicromagneticSystem` struct of `grid.rs` (scalar magnetization per
cell). -/
structure GridSystem where
  magnetization : List ℝ
  size : ℕ

/-- The struct invariant established by `MicromagneticSystem::new` in
`grid.rs`. -/
def WF (s : GridSystem) : Prop := s.magnetization.length = s.size

/-- The exchange contribution of `grid.rs` (lines 53-58): note that,
unlike the vector variant, the coefficient is `2 A / Ms` with no
permeability factor. -/
def exchVal (c : GridConsts) (mp mi mm : ℝ) : ℝ :=
  (2 * c.A / c.Ms) * (mp - 2 * mi + mm) / (c.dx * c.dx)

/-- The anisotropy contribution of `grid.rs` (lines 67-74). -/
def anisoVal (c : GridConsts) (mi : ℝ) : ℝ :=
  2 * c.Ku * (mi * c.easyAxis0) / c.Ms

/-- `MicromagneticSystem::compute_effective_field` of `grid.rs`; identical
loop structure to the vector variant, over scalars. -/
def compute_effective_field (c : GridConsts) (s : GridSystem) :
    Option (List ℝ) :=
  (addLoop (fun i =>
      (s.magnetization.get? (i + 1)).bind fun mp =>
        (s.magnetization.get? i).bind fun mi =>
          (s.magnetization.get? (i - 1)).bind fun mm =>
            some (exchVal c mp mi mm))
    (List.range' 1 (usizeSub s.size 1 - 1)) (List.replicate s.size 0)).bind fun h1 =>
  (addLoop (fun i =>
      (s.magnetization.get? i).bind fun mi =>
        some (anisoVal c mi))
    (List.range' 0 s.size) h1).bind fun h2 =>
  addLoop (fun _ => some c.hext) (List.range' 0 s.size) h2

/-- The per-site update of `relaxation_step` in `grid.rs`. -/
def chVal (c : GridConsts) (hi : ℝ) : ℝ :=
  (-c.alpha) * c.gamma * hi * c.Ms

/-- `f64::clamp(-1.0, 1.0)`. -/
def clampR (x : ℝ) : ℝ := min (max x (-1)) 1

/-- The per-site loop body of `relaxation_step` in `grid.rs`: compute the
change, update `max_change`, add in place, then clamp in place. -/
def relaxLoop (c : GridConsts) (h : List ℝ) :
    List ℕ → List ℝ × ℝ → Option (List ℝ × ℝ)
  | [], st => some st
  | i :: is, st =>
    (h.get? i).bind fun hi =>
      let ch := chVal c hi
      let mc' := max st.2 |ch|
      (st.1.get? i).bind fun mi =>
        (setChecked st.1 i (mi + ch)).bind fun m1 =>
          (m1.get? i).bind fun v =>
            (setChecked m1 i (clampR v)).bind fun m2 =>
              relaxLoop c h is (m2, mc')

/-- `MicromagneticSystem::relaxation_step` of `grid.rs`. -/
def relaxation_step (c : GridConsts) (s : GridSystem) :
    Option (GridSystem × ℝ) :=
  (compute_effective_field c s).bind fun h =>
    (relaxLoop c h (List.range' 0 s.size) (s.magnetization, 0)).bind fun st =>
      some ({ magnetization := st.1, size := s.size }, st.2)

/-- `MicromagneticSystem::minimize_energy` of `grid.rs`. -/
def minimize_energy (c : GridConsts) (s : GridSystem) :
    Option (GridSystem × Status) :=
  loopFrom (relaxation_step c) c.tol 0 c.maxIter s

end Grid

/-! ## Fold-max helpers (for the `max_change` accumulator) -/

/-- The running maximum `acc = max(acc, f i)` accumulated by the relaxation
loops. -/
def foldMax (f : ℕ → ℝ) (l : List ℕ) (b : ℝ) : ℝ :=
  l.foldl (fun acc i => max acc (f i)) b

@[simp] theorem foldMax_nil (f : ℕ → ℝ) (b : ℝ) : foldMax f [] b = b := rfl

theorem foldMax_cons (f : ℕ → ℝ) (i : ℕ) (l : List ℕ) (b : ℝ) :
    foldMax f (i :: l) b = foldMax f l (max b (f i)) := rfl

theorem le_foldMax_self (f : ℕ → ℝ) (l : List ℕ) (b : ℝ) : b ≤ foldMax f l b := by
  induction l generalizing b with
  | nil => simp
  | cons i t ih =>
    rw [foldMax_cons]
    exact le_trans (le_max_left b (f i)) (ih (max b (f i)))

theorem le_foldMax_of_mem (f : ℕ → ℝ) (l : List ℕ) (b : ℝ) (i : ℕ) (hi : i ∈ l) :
    f i ≤ foldMax f l b := by
  induction l generalizing b with
  | nil => simp at hi
  | cons j t ih =>
    rw [foldMax_cons]
    rcases List.mem_cons.mp hi with rfl | hmem
    · exact le_trans (le_max_right b (f i)) (le_foldMax_self f t _)
    · exact ih _ hmem

theorem foldMax_eq_base_or_mem (f : ℕ → ℝ) (l : List ℕ) (b : ℝ) :
    foldMax f l b = b ∨ ∃ i ∈ l, foldMax f l b = f i := by
  induction l generalizing b with
  | nil => exact Or.inl rfl
  | cons j t ih =>
    rw [foldMax_cons]
    rcases ih (max b (f j)) with h | ⟨i, hi, hfi⟩
    · rcases max_cases b (f j) with ⟨hm, _⟩ | ⟨hm, _⟩
      · exact Or.inl (h.trans hm)
      · exact Or.inr ⟨j, List.mem_cons_self j t, h.trans hm⟩
    · exact Or.inr ⟨i, List.mem_cons_of_mem j hi, hfi⟩

theorem foldMax_congr (f g : ℕ → ℝ) (l : List ℕ) (b : ℝ)
    (h : ∀ i ∈ l, f i = g i) : foldMax f l b = foldMax g l b := by
  induction l generalizing b with
  | nil => rfl
  | cons j t ih =>
    rw [foldMax_cons, foldMax_cons, h j (List.mem_cons_self j t)]
    exact ih _ (fun i hi => h i (List.mem_cons_of_mem j hi))

/-! ## Characterization of the vector variant -/

namespace MagneticMoments

/-- The value of `h_eff[i]` produced by `compute_effective_field`: an
exchange contribution for interior sites only, plus the anisotropy and
Zeeman contributions at every site. -/
def heffD (c : VecConsts) (s : MicromagneticSystem) (i : ℕ) : Vec3 :=
  (if 1 ≤ i ∧ i + 1 < s.size then
    exchVal c (s.magnetizations.getD (i + 1) 0) (s.magnetizations.getD i 0)
      (s.magnetizations.getD (i - 1) 0)
  else 0) + anisoVal c (s.magnetizations.getD i 0) + zeeVal c

/-- The moment at site `j` right after the update and before normalization. -/
def updVal (c : VecConsts) (s : MicromagneticSystem) (j : ℕ) : Vec3 :=
  s.magnetizations.getD j 0 + chVal c (heffD c s j)

/-- In-place normalization: divide by the Euclidean norm. -/
def nmz (u : Vec3) : Vec3 := Vec3.sdiv u (Real.sqrt (u.dot u))

theorem cef_spec (c : VecConsts) (s : MicromagneticSystem) (hWF : WF s)
    (hb : s.size < 2 ^ 64) (h1 : 1 ≤ s.size) :
    ∃ h, compute_effective_field c s = some h ∧ h.length = s.size ∧
      ∀ j, j < s.size → h.getD j 0 = heffD c s j := by
  obtain ⟨m, N⟩ := s
  simp only [WF] at hWF
  simp only at h1 hb ⊢
  have hcount : usizeSub N 1 - 1 = N - 2 := by
    rw [usizeSub_one N h1 hb]; omega
  -- exchange loop
  obtain ⟨hA, hrunA, hlenA, hptA⟩ :=
    addLoop_spec (0 : Vec3)
      (fun i =>
        (m.get? (i + 1)).bind fun mp =>
          (m.get? i).bind fun mi =>
            (m.get? (i - 1)).bind fun mm =>
              some (exchVal c mp mi mm))
      (fun i => exchVal c (m.getD (i + 1) 0) (m.getD i 0) (m.getD (i - 1) 0))
      (N - 2) 1 (List.replicate N 0)
      (fun i hi1 hi2 => by
        simp only [get?_of_lt m (i + 1) 0 (show i + 1 < m.length by omega),
          get?_of_lt m i 0 (show i < m.length by omega),
          get?_of_lt m (i - 1) 0 (show i - 1 < m.length by omega), Option.some_bind])
      (fun i hi1 hi2 => by rw [List.length_replicate]; omega)
  -- anisotropy loop
  obtain ⟨hB, hrunB, hlenB, hptB⟩ :=
    addLoop_spec (0 : Vec3)
      (fun i => (m.get? i).bind fun mi => some (anisoVal c mi))
      (fun i => anisoVal c (m.getD i 0))
      N 0 hA
      (fun i hi1 hi2 => by
        simp only [get?_of_lt m i 0 (show i < m.length by omega), Option.some_bind])
      (fun i hi1 hi2 => by rw [hlenA, List.length_replicate]; omega)
  -- Zeeman loop
  obtain ⟨hC, hrunC, hlenC, hptC⟩ :=
    addLoop_spec (0 : Vec3) (fun _ => some (zeeVal c)) (fun _ => zeeVal c)
      N 0 hB
      (fun i _ _ => rfl)
      (fun i hi1 hi2 => by rw [hlenB, hlenA, List.length_replicate]; omega)
  have hlenRep : (List.replicate N (0 : Vec3)).length = N := List.length_replicate N 0
  refine ⟨hC, ?_, by rw [hlenC, hlenB, hlenA, hlenRep], ?_⟩
  · unfold compute_effective_field
    simp only
    rw [hcount, hrunA, Option.some_bind, hrunB, Option.some_bind, hrunC]
  · intro j hj
    have hjA : j < hA.length := by rw [hlenA, hlenRep]; omega
    have hjB : j < hB.length := by rw [hlenB, hlenA, hlenRep]; omega
    have hjRep : j < (List.replicate N (0 : Vec3)).length := by rw [hlenRep]; omega
    rw [hptC j hjB, if_pos ⟨Nat.zero_le j, by omega⟩,
      hptB j hjA, if_pos ⟨Nat.zero_le j, by omega⟩,
      hptA j hjRep, getD_replicate' N j 0 0 hj]
    unfold heffD
    simp only
    by_cases hint : 1 ≤ j ∧ j < 1 + (N - 2)
    · rw [if_pos hint, if_pos (show 1 ≤ j ∧ j + 1 < N by omega), Vec3.zero_add]
    · rw [if_neg hint, if_neg (show ¬(1 ≤ j ∧ j + 1 < N) by omega)]

/-- For a size-0 system the exchange loop bound underflows and the very
first iteration indexes `h_eff[1]` in an empty array. -/
theorem cef_size_zero (c : VecConsts) (s : MicromagneticSystem)
    (h0 : s.size = 0) : compute_effective_field c s = none := by
  obtain ⟨m, N⟩ := s
  simp only at h0
  subst h0
  unfold compute_effective_field
  simp only
  have hc : usizeSub 0 1 - 1 = (2 ^ 64 - 3) + 1 := by
    rw [usizeSub_zero_one]; norm_num
  rw [hc, List.range'_succ, addLoop_cons]
  simp [List.replicate]

theorem relaxation_step_size_zero (c : VecConsts) (s : MicromagneticSystem)
    (h0 : s.size = 0) : relaxation_step c s = none := by
  unfold relaxation_step
  rw [cef_size_zero c s h0, Option.none_bind]

theorem relaxLoop_spec (c : VecConsts) (h : List Vec3) :
    ∀ (n a : ℕ) (m : List Vec3) (mc : ℝ),
      (∀ i, a ≤ i → i < a + n → i < m.length) →
      (∀ i, a ≤ i → i < a + n → i < h.length) →
      ∃ m' mc', relaxLoop c h (List.range' a n) (m, mc) = some (m', mc') ∧
        m'.length = m.length ∧
        (∀ j, j < m.length → m'.getD j 0 =
          if a ≤ j ∧ j < a + n then nmz (m.getD j 0 + chVal c (h.getD j 0))
          else m.getD j 0) ∧
        mc' = foldMax (fun i => vecMaxAbs (chVal c (h.getD i 0))) (List.range' a n) mc := by
  intro n
  induction n with
  | zero =>
    intro a m mc _ _
    refine ⟨m, mc, by simp [List.range', relaxLoop], rfl, ?_, by simp [List.range']⟩
    intro j _
    rw [if_neg (by omega)]
  | succ k ih =>
    intro a m mc hm hh
    have ham : a < m.length := hm a (le_refl a) (by omega)
    have hah : a < h.length := hh a (le_refl a) (by omega)
    have hrange : List.range' a (k + 1) = a :: List.range' (a + 1) k := rfl
    set u : Vec3 := m.getD a 0 + chVal c (h.getD a 0) with hu
    set m1 := m.set a u with hm1
    have ham1 : a < m1.length := by rw [hm1, List.length_set]; exact ham
    set m2 := m1.set a (nmz u) with hm2
    have hlen2 : m2.length = m.length := by rw [hm2, hm1, List.length_set, List.length_set]
    obtain ⟨m', mc', hrun, hlen', hpt, hmc⟩ :=
      ih (a + 1) m2 (max mc (vecMaxAbs (chVal c (h.getD a 0))))
        (fun i hi1 hi2 => by rw [hlen2]; exact hm i (by omega) (by omega))
        (fun i hi1 hi2 => hh i (by omega) (by omega))
    refine ⟨m', mc', ?_, by rw [hlen', hlen2], ?_, ?_⟩
    · rw [hrange]
      show (h.get? a).bind _ = some (m', mc')
      rw [get?_of_lt h a 0 hah, Option.some_bind]
      simp only
      rw [get?_of_lt m a 0 ham, Option.some_bind,
        setChecked_of_lt m a _ ham, Option.some_bind,
        get?_of_lt (m.set a u) a 0 (by rw [List.length_set]; exact ham), Option.some_bind,
        getD_set_self m a u 0 ham,
        setChecked_of_lt (m.set a u) a _ (by rw [List.length_set]; exact ham),
        Option.some_bind]
      exact hrun
    · intro j hj
      have hj2 : j < m2.length := by rw [hlen2]; exact hj
      rcases eq_or_ne j a with rfl | hne
      · rw [hpt j hj2, if_neg (by omega), hm2, getD_set_self m1 j (nmz u) 0 ham1,
          if_pos ⟨le_refl j, by omega⟩]
      · rw [hpt j hj2, hm2, getD_set_ne m1 a j _ 0 (Ne.symm hne), hm1,
          getD_set_ne m a j _ 0 (Ne.symm hne)]
        by_cases hcase : a + 1 ≤ j ∧ j < a + 1 + k
        · rw [if_pos hcase, if_pos (by omega)]
        · rw [if_neg hcase, if_neg (by omega)]
    · rw [hmc, hrange, foldMax_cons]

/-- Full characterization of `relaxation_step`: it succeeds on any
well-formed nonempty system, each site becomes the normalization of the old
moment plus the update computed from the pre-update field, and the returned
`max_change` is the running maximum of the componentwise absolute updates. -/
theorem relaxation_step_spec (c : VecConsts) (s : MicromagneticSystem)
    (hWF : WF s) (hb : s.size < 2 ^ 64) (h1 : 1 ≤ s.size) :
    ∃ s' mc, relaxation_step c s = some (s', mc) ∧ s'.size = s.size ∧ WF s' ∧
      (∀ j, j < s.size → s'.magnetizations.getD j 0 = nmz (updVal c s j)) ∧
      mc = foldMax (fun i => vecMaxAbs (chVal c (heffD c s i))) (List.range' 0 s.size) 0 := by
  obtain ⟨h, hrun, hlen, hpt⟩ := cef_spec c s hWF hb h1
  obtain ⟨m', mc', hrunL, hlenL, hptL, hmcL⟩ :=
    relaxLoop_spec c h s.size 0 s.magnetizations 0
      (fun i hi1 hi2 => by rw [hWF]; omega)
      (fun i hi1 hi2 => by rw [hlen]; omega)
  refine ⟨{ magnetizations := m', size := s.size }, mc', ?_, rfl, ?_, ?_, ?_⟩
  · unfold relaxation_step
    rw [hrun, Option.some_bind, hrunL, Option.some_bind]
  · show m'.length = s.size
    rw [hlenL, hWF]
  · intro j hj
    have hjm : j < s.magnetizations.length := by rw [hWF]; omega
    show m'.getD j 0 = nmz (updVal c s j)
    rw [hptL j hjm, if_pos ⟨Nat.zero_le j, by omega⟩, hpt j hj]
    rfl
  · rw [hmcL]
    exact foldMax_congr _ _ _ _ (fun i hi => by
      rw [hpt i (by have := List.mem_range'_1.mp hi; omega)])

/-- Normalizing a vector whose squared magnitude is nonzero yields a unit
vector. -/
theorem nmz_unit (u : Vec3) (hu : u.dot u ≠ 0) :
    Real.sqrt ((nmz u).dot (nmz u)) = 1 := by
  have hpos : 0 < u.dot u := lt_of_le_of_ne (Vec3.dot_self_nonneg u) (Ne.symm hu)
  have hsq : Real.sqrt (u.dot u) ^ 2 = u.dot u := Real.sq_sqrt (le_of_lt hpos)
  have hsqrtpos : 0 < Real.sqrt (u.dot u) := Real.sqrt_pos.mpr hpos
  have hdot : (nmz u).dot (nmz u) = 1 := by
    unfold nmz Vec3.sdiv
    unfold Vec3.dot at hu hpos hsq ⊢
    simp only [Vec3.mk_x, Vec3.mk_y, Vec3.mk_z]
    field_simp
  rw [hdot, Real.sqrt_one]

/-- Normalizing a vector that already has unit squared magnitude leaves it
unchanged. -/
theorem nmz_of_dot_one (u : Vec3) (hu : u.dot u = 1) : nmz u = u := by
  unfold nmz
  rw [hu, Real.sqrt_one]
  ext <;> simp [Vec3.sdiv]

/-- Normalizing the zero vector divides by zero; in the real-number model
the result is the zero vector. -/
theorem nmz_zero_of_dot_zero (u : Vec3) (hu : u.dot u = 0) : nmz u = 0 := by
  have := (Vec3.dot_self_eq_zero_iff u).mp hu
  subst this
  unfold nmz
  ext <;> simp

/-- The per-site magnetization change `TIME_STEP * dm/dt` of
`compute_magnetization_change`, expressed through the pre-state field. -/
def dmVal (c : VecConsts) (s : MicromagneticSystem) (j : ℕ) : Vec3 :=
  c.dt • llgVal c (s.magnetizations.getD j 0) (heffD c s j)

theorem mchLoop_spec (c : VecConsts) (m h : List Vec3) :
    ∀ (n a : ℕ) (pd ch : List Vec3),
      (∀ i, a ≤ i → i < a + n →
        i < m.length ∧ i < h.length ∧ i < pd.length ∧ i < ch.length) →
      ∃ pd' ch', mchLoop c m h (List.range' a n) (pd, ch) = some (pd', ch') ∧
        pd'.length = pd.length ∧ ch'.length = ch.length ∧
        ∀ j, j < ch.length → ch'.getD j 0 =
          if a ≤ j ∧ j < a + n then c.dt • llgVal c (m.getD j 0) (h.getD j 0)
          else ch.getD j 0 := by
  intro n
  induction n with
  | zero =>
    intro a pd ch _
    refine ⟨pd, ch, by simp [List.range', mchLoop], rfl, rfl, ?_⟩
    intro j _
    rw [if_neg (by omega)]
  | succ k ih =>
    intro a pd ch hb
    obtain ⟨ham, hah, hapd, hach⟩ := hb a (le_refl a) (by omega)
    have hrange : List.range' a (k + 1) = a :: List.range' (a + 1) k := rfl
    set pdv := llgVal c (m.getD a 0) (h.getD a 0) with hpdv
    set pd1 := pd.set a pdv with hpd1
    set ch1 := ch.set a (c.dt • pdv) with hch1
    have hlpd1 : pd1.length = pd.length := by rw [hpd1, List.length_set]
    have hlch1 : ch1.length = ch.length := by rw [hch1, List.length_set]
    obtain ⟨pd', ch', hrun, hlpd, hlch, hpt⟩ :=
      ih (a + 1) pd1 ch1
        (fun i hi1 hi2 => by
          obtain ⟨h1, h2, h3, h4⟩ := hb i (by omega) (by omega)
          exact ⟨h1, h2, by rw [hlpd1]; exact h3, by rw [hlch1]; exact h4⟩)
    refine ⟨pd', ch', ?_, by rw [hlpd, hlpd1], by rw [hlch, hlch1], ?_⟩
    · rw [hrange]
      show (m.get? a).bind _ = some (pd', ch')
      rw [get?_of_lt m a 0 ham, Option.some_bind]
      simp only
      rw [get?_of_lt h a 0 hah, Option.some_bind,
        setChecked_of_lt pd a _ hapd, Option.some_bind,
        get?_of_lt (pd.set a pdv) a 0 (by rw [List.length_set]; exact hapd),
        Option.some_bind, getD_set_self pd a pdv 0 hapd,
        setChecked_of_lt ch a _ hach, Option.some_bind]
      exact hrun
    · intro j hj
      have hj1 : j < ch1.length := by rw [hlch1]; exact hj
      rcases eq_or_ne j a with rfl | hne
      · rw [hpt j hj1, if_neg (by omega), hch1, getD_set_self ch j _ 0 hach,
          if_pos ⟨le_refl j, by omega⟩]
      · rw [hpt j hj1, hch1, getD_set_ne ch a j _ 0 (Ne.symm hne)]
        by_cases hcase : a + 1 ≤ j ∧ j < a + 1 + k
        · rw [if_pos hcase, if_pos (by omega)]
        · rw [if_neg hcase, if_neg (by omega)]

theorem cmc_spec (c : VecConsts) (s : MicromagneticSystem) (hWF : WF s)
    (hb : s.size < 2 ^ 64) (h1 : 1 ≤ s.size) :
    ∃ ch, compute_magnetization_change c s = some ch ∧ ch.length = s.size ∧
      ∀ j, j < s.size → ch.getD j 0 = dmVal c s j := by
  obtain ⟨h, hrun, hlen, hpt⟩ := cef_spec c s hWF hb h1
  obtain ⟨pd', ch', hrunM, hlpd, hlch, hptM⟩ :=
    mchLoop_spec c s.magnetizations h s.size 0
      (List.replicate s.size 0) (List.replicate s.size 0)
      (fun i hi1 hi2 =>
        ⟨by rw [hWF]; omega, by rw [hlen]; omega,
         by rw [List.length_replicate]; omega, by rw [List.length_replicate]; omega⟩)
  refine ⟨ch', ?_, by rw [hlch, List.length_replicate], ?_⟩
  · unfold compute_magnetization_change
    rw [hrun, Option.some_bind, hrunM, Option.some_bind]
  · intro j hj
    have hjr : j < (List.replicate s.size (0 : Vec3)).length := by
      rw [List.length_replicate]; omega
    rw [hptM j hjr, if_pos ⟨Nat.zero_le j, by omega⟩, hpt j hj]
    rfl

theorem ecLoop_spec (c : VecConsts) (m h ch : List Vec3) :
    ∀ (n a : ℕ) (e : ℝ),
      (∀ i, a ≤ i → i < a + (n + 1) →
        i < m.length ∧ i < h.length ∧ i < ch.length) →
      ecLoop c m h ch (List.range' a (n + 1)) e =
        some (-((h.getD (a + n) 0).dot (ch.getD (a + n) 0)) * c.Ms * c.mu0) := by
  intro n
  induction n with
  | zero =>
    intro a e hb
    obtain ⟨h1, h2, h3⟩ := hb a (le_refl a) (by omega)
    show (m.get? a).bind _ = _
    rw [get?_of_lt m a 0 h1, Option.some_bind]
    simp only
    rw [get?_of_lt h a 0 h2, Option.some_bind, get?_of_lt ch a 0 h3, Option.some_bind]
    rfl
  | succ k ih =>
    intro a e hb
    obtain ⟨h1, h2, h3⟩ := hb a (le_refl a) (by omega)
    have hrange : List.range' a (k + 1 + 1) = a :: List.range' (a + 1) (k + 1) := rfl
    rw [hrange]
    show (m.get? a).bind _ = _
    rw [get?_of_lt m a 0 h1, Option.some_bind]
    rw [get?_of_lt h a 0 h2, Option.some_bind, get?_of_lt ch a 0 h3, Option.some_bind]
    have := ih (a + 1) (-((h.getD a 0).dot (ch.getD a 0)) * c.Ms * c.mu0)
      (fun i hi1 hi2 => hb i (by omega) (by omega))
    rw [this]
    have harith : a + 1 + k = a + (k + 1) := by omega
    rw [harith]

/-- `compute_energy_change` returns only the last site's contribution: each
loop iteration overwrites the accumulator instead of adding to it. -/
theorem cec_spec (c : VecConsts) (s : MicromagneticSystem) (hWF : WF s)
    (hb : s.size < 2 ^ 64) (h1 : 1 ≤ s.size) :
    compute_energy_change c s =
      some (-((heffD c s (s.size - 1)).dot (dmVal c s (s.size - 1))) * c.Ms * c.mu0) := by
  obtain ⟨ch, hrunC, hlenC, hptC⟩ := cmc_spec c s hWF hb h1
  obtain ⟨h, hrun, hlen, hpt⟩ := cef_spec c s hWF hb h1
  unfold compute_energy_change
  rw [hrunC, Option.some_bind, hrun, Option.some_bind]
  have hsz : s.size = (s.size - 1) + 1 := by omega
  rw [show List.range' 0 s.size = List.range' 0 ((s.size - 1) + 1) from by rw [← hsz]]
  rw [ecLoop_spec c s.magnetizations h ch (s.size - 1) 0 0
    (fun i hi1 hi2 =>
      ⟨by rw [hWF]; omega, by rw [hlen]; omega, by rw [hlenC]; omega⟩)]
  rw [Nat.zero_add, hpt (s.size - 1) (by omega), hptC (s.size - 1) (by omega)]

end MagneticMoments

/-! ## Characterization of the scalar variant -/

namespace Grid

/-- The value of `h_eff[i]` produced by the scalar
`compute_effective_field`. -/
def heffD (c : GridConsts) (s : GridSystem) (i : ℕ) : ℝ :=
  (if 1 ≤ i ∧ i + 1 < s.size then
    exchVal c (s.magnetization.getD (i + 1) 0) (s.magnetization.getD i 0)
      (s.magnetization.getD (i - 1) 0)
  else 0) + anisoVal c (s.magnetization.getD i 0) + c.hext

/-- The scalar at site `j` right after the update and before clamping. -/
def updVal (c : GridConsts) (s : GridSystem) (j : ℕ) : ℝ :=
  s.magnetization.getD j 0 + chVal c (heffD c s j)

theorem cef_spec_scl (c : GridConsts) (s : GridSystem) (hWF : WF s)
    (hb : s.size < 2 ^ 64) (h1 : 1 ≤ s.size) :
    ∃ h, compute_effective_field c s = some h ∧ h.length = s.size ∧
      ∀ j, j < s.size → h.getD j 0 = heffD c s j := by
  obtain ⟨m, N⟩ := s
  simp only [WF] at hWF
  simp only at h1 hb ⊢
  have hcount : usizeSub N 1 - 1 = N - 2 := by
    rw [usizeSub_one N h1 hb]; omega
  obtain ⟨hA, hrunA, hlenA, hptA⟩ :=
    addLoop_spec (0 : ℝ)
      (fun i =>
        (m.get? (i + 1)).bind fun mp =>
          (m.get? i).bind fun mi =>
            (m.get? (i - 1)).bind fun mm =>
              some (exchVal c mp mi mm))
      (fun i => exchVal c (m.getD (i + 1) 0) (m.getD i 0) (m.getD (i - 1) 0))
      (N - 2) 1 (List.replicate N 0)
      (fun i hi1 hi2 => by
        simp only [get?_of_lt m (i + 1) 0 (show i + 1 < m.length by omega),
          get?_of_lt m i 0 (show i < m.length by omega),
          get?_of_lt m (i - 1) 0 (show i - 1 < m.length by omega), Option.some_bind])
      (fun i hi1 hi2 => by rw [List.length_replicate]; omega)
  obtain ⟨hB, hrunB, hlenB, hptB⟩ :=
    addLoop_spec (0 : ℝ)
      (fun i => (m.get? i).bind fun mi => some (anisoVal c mi))
      (fun i => anisoVal c (m.getD i 0))
      N 0 hA
      (fun i hi1 hi2 => by
        simp only [get?_of_lt m i 0 (show i < m.length by omega), Option.some_bind])
      (fun i hi1 hi2 => by rw [hlenA, List.length_replicate]; omega)
  obtain ⟨hC, hrunC, hlenC, hptC⟩ :=
    addLoop_spec (0 : ℝ) (fun _ => some c.hext) (fun _ => c.hext)
      N 0 hB
      (fun i _ _ => rfl)
      (fun i hi1 hi2 => by rw [hlenB, hlenA, List.length_replicate]; omega)
  have hlenRep : (List.replicate N (0 : ℝ)).length = N := List.length_replicate N 0
  refine ⟨hC, ?_, by rw [hlenC, hlenB, hlenA, hlenRep], ?_⟩
  · unfold compute_effective_field
    simp only
    rw [hcount, hrunA, Option.some_bind, hrunB, Option.some_bind, hrunC]
  · intro j hj
    have hjA : j < hA.length := by rw [hlenA, hlenRep]; omega
    have hjB : j < hB.length := by rw [hlenB, hlenA, hlenRep]; omega
    have hjRep : j < (List.replicate N (0 : ℝ)).length := by rw [hlenRep]; omega
    rw [hptC j hjB, if_pos ⟨Nat.zero_le j, by omega⟩,
      hptB j hjA, if_pos ⟨Nat.zero_le j, by omega⟩,
      hptA j hjRep, getD_replicate' N j 0 0 hj]
    unfold heffD
    simp only
    by_cases hint : 1 ≤ j ∧ j < 1 + (N - 2)
    · rw [if_pos hint, if_pos (show 1 ≤ j ∧ j + 1 < N by omega), zero_add]
    · rw [if_neg hint, if_neg (show ¬(1 ≤ j ∧ j + 1 < N) by omega)]

/-- The scalar variant has the same size-0 underflow as the vector one. -/
theorem cef_size_zero_scl (c : GridConsts) (s : GridSystem)
    (h0 : s.size = 0) : compute_effective_field c s = none := by
  obtain ⟨m, N⟩ := s
  simp only at h0
  subst h0
  unfold compute_effective_field
  simp only
  have hc : usizeSub 0 1 - 1 = (2 ^ 64 - 3) + 1 := by
    rw [usizeSub_zero_one]; norm_num
  rw [hc, List.range'_succ, addLoop_cons]
  simp [List.replicate]

theorem relaxation_step_size_zero_scl (c : GridConsts) (s : GridSystem)
    (h0 : s.size = 0) : relaxation_step c s = none := by
  unfold relaxation_step
  rw [cef_size_zero_scl c s h0, Option.none_bind]

theorem relaxLoop_spec_scl (c : GridConsts) (h : List ℝ) :
    ∀ (n a : ℕ) (m : List ℝ) (mc : ℝ),
      (∀ i, a ≤ i → i < a + n → i < m.length) →
      (∀ i, a ≤ i → i < a + n → i < h.length) →
      ∃ m' mc', relaxLoop c h (List.range' a n) (m, mc) = some (m', mc') ∧
        m'.length = m.length ∧
        (∀ j, j < m.length → m'.getD j 0 =
          if a ≤ j ∧ j < a + n then clampR (m.getD j 0 + chVal c (h.getD j 0))
          else m.getD j 0) ∧
        mc' = foldMax (fun i => |chVal c (h.getD i 0)|) (List.range' a n) mc := by
  intro n
  induction n with
  | zero =>
    intro a m mc _ _
    refine ⟨m, mc, by simp [List.range', relaxLoop], rfl, ?_, by simp [List.range']⟩
    intro j _
    rw [if_neg (by omega)]
  | succ k ih =>
    intro a m mc hm hh
    have ham : a < m.length := hm a (le_refl a) (by omega)
    have hah : a < h.length := hh a (le_refl a) (by omega)
    have hrange : List.range' a (k + 1) = a :: List.range' (a + 1) k := rfl
    set u : ℝ := m.getD a 0 + chVal c (h.getD a 0) with hu
    set m1 := m.set a u with hm1
    have ham1 : a < m1.length := by rw [hm1, List.length_set]; exact ham
    set m2 := m1.set a (clampR u) with hm2
    have hlen2 : m2.length = m.length := by rw [hm2, hm1, List.length_set, List.length_set]
    obtain ⟨m', mc', hrun, hlen', hpt, hmc⟩ :=
      ih (a + 1) m2 (max mc |chVal c (h.getD a 0)|)
        (fun i hi1 hi2 => by rw [hlen2]; exact hm i (by omega) (by omega))
        (fun i hi1 hi2 => hh i (by omega) (by omega))
    refine ⟨m', mc', ?_, by rw [hlen', hlen2], ?_, ?_⟩
    · rw [hrange]
      show (h.get? a).bind _ = some (m', mc')
      rw [get?_of_lt h a 0 hah, Option.some_bind]
      simp only
      rw [get?_of_lt m a 0 ham, Option.some_bind,
        setChecked_of_lt m a _ ham, Option.some_bind,
        get?_of_lt (m.set a u) a 0 (by rw [List.length_set]; exact ham), Option.some_bind,
        getD_set_self m a u 0 ham,
        setChecked_of_lt (m.set a u) a _ (by rw [List.length_set]; exact ham),
        Option.some_bind]
      exact hrun
    · intro j hj
      have hj2 : j < m2.length := by rw [hlen2]; exact hj
      rcases eq_or_ne j a with rfl | hne
      · rw [hpt j hj2, if_neg (by omega), hm2, getD_set_self m1 j (clampR u) 0 ham1,
          if_pos ⟨le_refl j, by omega⟩]
      · rw [hpt j hj2, hm2, getD_set_ne m1 a j _ 0 (Ne.symm hne), hm1,
          getD_set_ne m a j _ 0 (Ne.symm hne)]
        by_cases hcase : a + 1 ≤ j ∧ j < a + 1 + k
        · rw [if_pos hcase, if_pos (by omega)]
        · rw [if_neg hcase, if_neg (by omega)]
    · rw [hmc, hrange, foldMax_cons]

/-- Full characterization of the scalar `relaxation_step`. -/
theorem relaxation_step_spec_scl (c : GridConsts) (s : GridSystem)
    (hWF : WF s) (hb : s.size < 2 ^ 64) (h1 : 1 ≤ s.size) :
    ∃ s' mc, relaxation_step c s = some (s', mc) ∧ s'.size = s.size ∧ WF s' ∧
      (∀ j, j < s.size → s'.magnetization.getD j 0 = clampR (updVal c s j)) ∧
      mc = foldMax (fun i => |chVal c (heffD c s i)|) (List.range' 0 s.size) 0 := by
  obtain ⟨h, hrun, hlen, hpt⟩ := cef_spec_scl c s hWF hb h1
  obtain ⟨m', mc', hrunL, hlenL, hptL, hmcL⟩ :=
    relaxLoop_spec_scl c h s.size 0 s.magnetization 0
      (fun i hi1 hi2 => by rw [hWF]; omega)
      (fun i hi1 hi2 => by rw [hlen]; omega)
  refine ⟨{ magnetization := m', size := s.size }, mc', ?_, rfl, ?_, ?_, ?_⟩
  · unfold relaxation_step
    rw [hrun, Option.some_bind, hrunL, Option.some_bind]
  · show m'.length = s.size
    rw [hlenL, hWF]
  · intro j hj
    have hjm : j < s.magnetization.length := by rw [hWF]; omega
    show m'.getD j 0 = clampR (updVal c s j)
    rw [hptL j hjm, if_pos ⟨Nat.zero_le j, by omega⟩, hpt j hj]
    rfl
  · rw [hmcL]
    exact foldMax_congr _ _ _ _ (fun i hi => by
      rw [hpt i (by have := List.mem_range'_1.mp hi; omega)])

/-- Clamping always lands in `[-1, 1]`. -/
theorem clampR_mem (x : ℝ) : -1 ≤ clampR x ∧ clampR x ≤ 1 := by
  unfold clampR
  constructor
  · exact le_min (le_max_right x (-1)) (by norm_num)
  · exact min_le_right _ 1

/-- Clamping is the identity on `[-1, 1]`. -/
theorem clampR_eq_self (x : ℝ) (h1 : -1 ≤ x) (h2 : x ≤ 1) : clampR x = x := by
  unfold clampR
  rw [max_eq_left h1, min_eq_left h2]

end Grid

/-! ## Characterization of the convergence loop -/

theorem stepN_succ_of_step {σ : Type} (step : σ → Option (σ × ℝ)) (n : ℕ)
    (s : σ) (r : σ × ℝ) (h : step s = some r) :
    stepN step (n + 1) s = stepN step n r.1 := by
  show (step s).bind _ = _
  rw [h, Option.some_bind]

/-- What a `some` result of the convergence loop means: `converged i`
reports the 0-based index of the first step whose `max_change` went below
tolerance, with every earlier step at or above tolerance; the other outcome
means the whole budget ran with no step below tolerance.  In both cases the
returned state is the state after the last executed step. -/
theorem loopFrom_spec {σ : Type} (step : σ → Option (σ × ℝ)) (tol : ℝ) :
    ∀ (fuel k : ℕ) (s sf : σ) (st : Status),
      loopFrom step tol k fuel s = some (sf, st) →
      (∀ i, st = Status.converged i →
        ∃ j, i = k + j ∧ j < fuel ∧
          (∃ sj r, stepN step j s = some sj ∧ step sj = some r ∧ r.2 < tol ∧ sf = r.1) ∧
          (∀ j', j' < j → ∃ sj r, stepN step j' s = some sj ∧ step sj = some r ∧
            ¬ r.2 < tol)) ∧
      (st = Status.maxIterationsReached →
        stepN step fuel s = some sf ∧
        ∀ j', j' < fuel → ∃ sj r, stepN step j' s = some sj ∧ step sj = some r ∧
          ¬ r.2 < tol) := by
  intro fuel
  induction fuel with
  | zero =>
    intro k s sf st hrun
    have hinj : s = sf ∧ Status.maxIterationsReached = st := by
      have : (some (s, Status.maxIterationsReached) : Option (σ × Status)) =
          some (sf, st) := hrun
      have := Option.some.inj this
      exact ⟨congrArg Prod.fst this, congrArg Prod.snd this⟩
    obtain ⟨rfl, hst⟩ := hinj
    constructor
    · intro i hi
      rw [← hst] at hi
      exact absurd hi (by simp)
    · intro _
      exact ⟨rfl, fun j' hj' => absurd hj' (Nat.not_lt_zero j')⟩
  | succ fuel ih =>
    intro k s sf st hrun
    have hbind : ∃ r, step s = some r ∧
        (if r.2 < tol then some (r.1, Status.converged k)
         else loopFrom step tol (k + 1) fuel r.1) = some (sf, st) := by
      have : (step s).bind (fun r =>
          if r.2 < tol then some (r.1, Status.converged k)
          else loopFrom step tol (k + 1) fuel r.1) = some (sf, st) := hrun
      exact Option.bind_eq_some.mp this
    obtain ⟨r, hstep, hrest⟩ := hbind
    by_cases hlt : r.2 < tol
    · rw [if_pos hlt] at hrest
      have := Option.some.inj hrest
      have hsf : r.1 = sf := congrArg Prod.fst this
      have hst : Status.converged k = st := congrArg Prod.snd this
      constructor
      · intro i hi
        rw [← hst] at hi
        have hik : i = k := (Status.converged.injEq _ _).mp hi.symm
        refine ⟨0, by omega, by omega, ⟨s, r, rfl, hstep, hlt, hsf.symm⟩, ?_⟩
        intro j' hj'
        exact absurd hj' (Nat.not_lt_zero j')
      · intro hi
        rw [← hst] at hi
        exact absurd hi (by simp)
    · rw [if_neg hlt] at hrest
      obtain ⟨hconv, hmax⟩ := ih (k + 1) r.1 sf st hrest
      constructor
      · intro i hi
        obtain ⟨j, hij, hjf, ⟨sj, rj, hsj, hrj, hrjlt, hsfj⟩, hprev⟩ := hconv i hi
        refine ⟨j + 1, by omega, by omega, ⟨sj, rj, ?_, hrj, hrjlt, hsfj⟩, ?_⟩
        · rw [stepN_succ_of_step step j s r hstep]; exact hsj
        · intro j' hj'
          cases j' with
          | zero => exact ⟨s, r, rfl, hstep, hlt⟩
          | succ j'' =>
            obtain ⟨sj', rj', hsj', hrj', hlt'⟩ := hprev j'' (by omega)
            exact ⟨sj', rj', by rw [stepN_succ_of_step step j'' s r hstep]; exact hsj',
              hrj', hlt'⟩
      · intro hi
        obtain ⟨hfin, hprev⟩ := hmax hi
        refine ⟨by rw [stepN_succ_of_step step fuel s r hstep]; exact hfin, ?_⟩
        intro j' hj'
        cases j' with
        | zero => exact ⟨s, r, rfl, hstep, hlt⟩
        | succ j'' =>
          obtain ⟨sj', rj', hsj', hrj', hlt'⟩ := hprev j'' (by omega)
          exact ⟨sj', rj', by rw [stepN_succ_of_step step j'' s r hstep]; exact hsj',
            hrj', hlt'⟩

theorem foldMax_le (f : ℕ → ℝ) (l : List ℕ) (b c : ℝ) (hb : b ≤ c)
    (hf : ∀ i ∈ l, f i ≤ c) : foldMax f l b ≤ c := by
  induction l generalizing b with
  | nil => exact hb
  | cons j t ih =>
    rw [foldMax_cons]
    exact ih _ (max_le hb (hf j (List.mem_cons_self j t)))
      (fun i hi => hf i (List.mem_cons_of_mem j hi))

namespace MagneticMoments

theorem vecMaxAbs_nonneg (v : Vec3) : 0 ≤ vecMaxAbs v := by
  unfold vecMaxAbs
  exact le_trans (le_trans (le_trans (le_max_left 0 |v.x|) (le_max_left _ |v.y|))
    (le_max_left _ |v.z|)) (le_refl _)

theorem abs_le_vecMaxAbs (v : Vec3) :
    |v.x| ≤ vecMaxAbs v ∧ |v.y| ≤ vecMaxAbs v ∧ |v.z| ≤ vecMaxAbs v := by
  unfold vecMaxAbs
  refine ⟨?_, ?_, le_max_right _ _⟩
  · exact le_trans (le_trans (le_max_right 0 |v.x|) (le_max_left _ |v.y|))
      (le_max_left _ |v.z|)
  · exact le_trans (le_max_right _ |v.y|) (le_max_left _ |v.z|)

theorem vecMaxAbs_eq_zero_iff (v : Vec3) : vecMaxAbs v = 0 ↔ v = 0 := by
  constructor
  · intro h
    obtain ⟨hx, hy, hz⟩ := abs_le_vecMaxAbs v
    rw [h] at hx hy hz
    ext
    · exact abs_eq_zero.mp (le_antisymm hx (abs_nonneg _))
    · exact abs_eq_zero.mp (le_antisymm hy (abs_nonneg _))
    · exact abs_eq_zero.mp (le_antisymm hz (abs_nonneg _))
  · intro h
    subst h
    unfold vecMaxAbs
    simp

theorem vecMaxAbs_mem (v : Vec3) (h : vecMaxAbs v ≠ 0) :
    vecMaxAbs v = |v.x| ∨ vecMaxAbs v = |v.y| ∨ vecMaxAbs v = |v.z| := by
  unfold vecMaxAbs at h ⊢
  rcases max_cases (max (max 0 |v.x|) |v.y|) |v.z| with ⟨h3, _⟩ | ⟨h3, _⟩
  · rcases max_cases (max 0 |v.x|) |v.y| with ⟨h2, _⟩ | ⟨h2, _⟩
    · rcases max_cases 0 |v.x| with ⟨h1, _⟩ | ⟨h1, _⟩
      · exact absurd (h3.trans (h2.trans h1)) h
      · exact Or.inl (h3.trans (h2.trans h1))
    · exact Or.inr (Or.inl (h3.trans h2))
  · exact Or.inr (Or.inr h3)

/-- Nonemptiness of the system is forced by a successful step (the size-0
exchange loop aborts). -/
theorem one_le_size_of_step (c : VecConsts) (s : MicromagneticSystem)
    (r : MicromagneticSystem × ℝ) (hstep : relaxation_step c s = some r) :
    1 ≤ s.size := by
  by_contra hlt
  rw [relaxation_step_size_zero c s (by omega)] at hstep
  exact Option.noConfusion hstep

/-- Uniqueness form of `relaxation_step_spec`. -/
theorem relaxation_step_eq (c : VecConsts) (s s' : MicromagneticSystem) (mc : ℝ)
    (hWF : WF s) (hb : s.size < 2 ^ 64)
    (hstep : relaxation_step c s = some (s', mc)) :
    s'.size = s.size ∧ WF s' ∧
    (∀ j, j < s.size → s'.magnetizations.getD j 0 = nmz (updVal c s j)) ∧
    mc = foldMax (fun i => vecMaxAbs (chVal c (heffD c s i))) (List.range' 0 s.size) 0 := by
  have h1 : 1 ≤ s.size := one_le_size_of_step c s (s', mc) hstep
  obtain ⟨s'', mc'', hstep', hsz, hWF', hpt, hmc⟩ := relaxation_step_spec c s hWF hb h1
  rw [hstep] at hstep'
  have hinj := Option.some.inj hstep'
  have hs : s' = s'' := congrArg Prod.fst hinj
  have hm : mc = mc'' := congrArg Prod.snd hinj
  subst hs
  subst hm
  exact ⟨hsz, hWF', hpt, hmc⟩

/-- The effective field only depends on the moments (pointwise) and the
size. -/
theorem heffD_congr (c : VecConsts) (s t : MicromagneticSystem)
    (hsz : t.size = s.size)
    (hm : ∀ j, j < s.size → t.magnetizations.getD j 0 = s.magnetizations.getD j 0) :
    ∀ i, i < s.size → heffD c t i = heffD c s i := by
  intro i hi
  unfold heffD
  rw [hsz]
  by_cases hint : 1 ≤ i ∧ i + 1 < s.size
  · rw [if_pos hint, if_pos hint, hm (i + 1) (by omega), hm i hi, hm (i - 1) (by omega)]
  · rw [if_neg hint, if_neg hint, hm i hi]

end MagneticMoments

namespace Grid

theorem one_le_size_of_step_scl (c : GridConsts) (s : GridSystem)
    (r : GridSystem × ℝ) (hstep : relaxation_step c s = some r) :
    1 ≤ s.size := by
  by_contra hlt
  rw [relaxation_step_size_zero_scl c s (by omega)] at hstep
  exact Option.noConfusion hstep

/-- Uniqueness form of the scalar `relaxation_step_spec_scl`. -/
theorem relaxation_step_eq_scl (c : GridConsts) (s s' : GridSystem) (mc : ℝ)
    (hWF : WF s) (hb : s.size < 2 ^ 64)
    (hstep : relaxation_step c s = some (s', mc)) :
    s'.size = s.size ∧ WF s' ∧
    (∀ j, j < s.size → s'.magnetization.getD j 0 = clampR (updVal c s j)) ∧
    mc = foldMax (fun i => |chVal c (heffD c s i)|) (List.range' 0 s.size) 0 := by
  have h1 : 1 ≤ s.size := one_le_size_of_step_scl c s (s', mc) hstep
  obtain ⟨s'', mc'', hstep', hsz, hWF', hpt, hmc⟩ := relaxation_step_spec_scl c s hWF hb h1
  rw [hstep] at hstep'
  have hinj := Option.some.inj hstep'
  have hs : s' = s'' := congrArg Prod.fst hinj
  have hm : mc = mc'' := congrArg Prod.snd hinj
  subst hs
  subst hm
  exact ⟨hsz, hWF', hpt, hmc⟩

theorem heffD_congr_scl (c : GridConsts) (s t : GridSystem)
    (hsz : t.size = s.size)
    (hm : ∀ j, j < s.size → t.magnetization.getD j 0 = s.magnetization.getD j 0) :
    ∀ i, i < s.size → heffD c t i = heffD c s i := by
  intro i hi
  unfold heffD
  rw [hsz]
  by_cases hint : 1 ≤ i ∧ i + 1 < s.size
  · rw [if_pos hint, if_pos hint, hm (i + 1) (by omega), hm i hi, hm (i - 1) (by omega)]
  · rw [if_neg hint, if_neg hint, hm i hi]

end Grid

/-! ## Concrete configurations and systems used in closed statements -/

namespace MagneticMoments

/-- A simple vector configuration for concrete runs (unit constants, external
field `(0,0,2)`, tolerance 3, iteration cap 1). -/
def cV1 : VecConsts :=
  { A := 0, Ms := 1, mu0 := 1, dx := 1, Ku := 0, easyAxis := ⟨1, 0, 0⟩,
    hext := ⟨0, 0, 2⟩, dt := 1, alpha := 1, gamma := 1, maxIter := 1, tol := 3 }

/-- A vector configuration with no field at all: every step is an exact
fixed point. -/
def cV0 : VecConsts :=
  { A := 0, Ms := 1, mu0 := 1, dx := 1, Ku := 0, easyAxis := ⟨1, 0, 0⟩,
    hext := ⟨0, 0, 0⟩, dt := 1, alpha := 1, gamma := 1, maxIter := 1, tol := 1 }

/-- One site, magnetized along `+z`. -/
def sV1 : MicromagneticSystem := ⟨[⟨0, 0, 1⟩], 1⟩

/-- The three-site state of the spec's concrete scenario 2. -/
def sV3 : MicromagneticSystem := ⟨[⟨1, 0, 0⟩, ⟨0, 1, 0⟩, ⟨1, 0, 0⟩], 3⟩

/-- The empty system (size 0). -/
def sVE : MicromagneticSystem := ⟨[], 0⟩

theorem heffD_cV1 : heffD cV1 sV1 0 = ⟨0, 0, 2⟩ := by
  unfold heffD anisoVal zeeVal cV1 sV1
  rw [if_neg (by norm_num)]
  ext <;> simp [Vec3.dot, Vec3.sdiv, List.getD_cons_zero]

theorem updVal_cV1 : updVal cV1 sV1 0 = ⟨0, 0, -1⟩ := by
  unfold updVal chVal
  rw [heffD_cV1]
  ext <;> simp [cV1, sV1, List.getD_cons_zero]
  norm_num

theorem mc_cV1 :
    foldMax (fun i => vecMaxAbs (chVal cV1 (heffD cV1 sV1 i))) (List.range' 0 sV1.size) 0
      = 2 := by
  have hr : List.range' 0 sV1.size = [0] := rfl
  rw [hr, foldMax_cons, foldMax_nil, heffD_cV1]
  unfold chVal vecMaxAbs cV1
  simp

theorem heffD_cV0 : heffD cV0 sV1 0 = 0 := by
  unfold heffD anisoVal zeeVal cV0 sV1
  rw [if_neg (by norm_num)]
  ext <;> simp [Vec3.dot, Vec3.sdiv, List.getD_cons_zero]

theorem mc_cV0 :
    foldMax (fun i => vecMaxAbs (chVal cV0 (heffD cV0 sV1 i))) (List.range' 0 sV1.size) 0
      = 0 := by
  have hr : List.range' 0 sV1.size = [0] := rfl
  rw [hr, foldMax_cons, foldMax_nil, heffD_cV0]
  unfold chVal vecMaxAbs cV0
  simp

end MagneticMoments

namespace Grid

/-- A scalar configuration with a strong anisotropy (`Ku = 2`), no external
field, tolerance 1. -/
def cG1 : GridConsts :=
  { A := 1, Ms := 1, dx := 1, Ku := 2, easyAxis0 := 1, hext := 0,
    alpha := 1, gamma := 1, maxIter := 1, tol := 1 }

/-- A scalar configuration with no field at all. -/
def cG0 : GridConsts :=
  { A := 0, Ms := 1, dx := 1, Ku := 0, easyAxis0 := 1, hext := 0,
    alpha := 1, gamma := 1, maxIter := 1, tol := 1 }

/-- One cell at `1/5`. -/
def sG1 : GridSystem := ⟨[1 / 5], 1⟩

/-- One cell at `1/2`. -/
def sG0 : GridSystem := ⟨[1 / 2], 1⟩

/-- Three cells on a linear ramp: the neighbors of the interior cell differ
from each other and from it, yet the discrete Laplacian vanishes. -/
def sG3 : GridSystem := ⟨[0, 1 / 2, 1], 3⟩

/-- The empty scalar system. -/
def sGE : GridSystem := ⟨[], 0⟩

theorem heffD_cG1 : heffD cG1 sG1 0 = 4 / 5 := by
  unfold heffD anisoVal cG1 sG1
  rw [if_neg (by norm_num)]
  simp [List.getD_cons_zero]
  norm_num

theorem mc_cG1 :
    foldMax (fun i => |chVal cG1 (heffD cG1 sG1 i)|) (List.range' 0 sG1.size) 0
      = 4 / 5 := by
  have hr : List.range' 0 sG1.size = [0] := rfl
  rw [hr, foldMax_cons, foldMax_nil, heffD_cG1]
  unfold chVal cG1
  simp
  norm_num

theorem updVal_cG1 : updVal cG1 sG1 0 = -(3 / 5) := by
  unfold updVal chVal
  rw [heffD_cG1]
  simp [cG1, sG1, List.getD_cons_zero]
  norm_num

theorem heffD_cG0 : heffD cG0 sG0 0 = 0 := by
  unfold heffD anisoVal cG0 sG0
  rw [if_neg (by norm_num)]
  simp [List.getD_cons_zero]

theorem mc_cG0 :
    foldMax (fun i => |chVal cG0 (heffD cG0 sG0 i)|) (List.range' 0 sG0.size) 0
      = 0 := by
  have hr : List.range' 0 sG0.size = [0] := rfl
  rw [hr, foldMax_cons, foldMax_nil, heffD_cG0]
  unfold chVal cG0
  simp

end Grid

/-- The loop is total as soon as the step function is total on an invariant
preserved by the step. -/
theorem loopFrom_total {σ : Type} (step : σ → Option (σ × ℝ)) (tol : ℝ)
    (Inv : σ → Prop) (hstep : ∀ s, Inv s → ∃ r, step s = some r ∧ Inv r.1) :
    ∀ (fuel k : ℕ) (s : σ), Inv s →
      ∃ res, loopFrom step tol k fuel s = some res := by
  intro fuel
  induction fuel with
  | zero =>
    intro k s _
    exact ⟨(s, Status.maxIterationsReached), rfl⟩
  | succ fuel ih =>
    intro k s hs
    obtain ⟨r, hr, hr1⟩ := hstep s hs
    by_cases hlt : r.2 < tol
    · refine ⟨(r.1, Status.converged k), ?_⟩
      show (step s).bind _ = _
      rw [hr, Option.some_bind, if_pos hlt]
    · obtain ⟨res, hres⟩ := ih (k + 1) r.1 hr1
      refine ⟨res, ?_⟩
      show (step s).bind _ = _
      rw [hr, Option.some_bind, if_neg hlt]
      exact hres

/-! ## Claims -/

namespace MagneticMoments

/-- Claim C1: in the vector variant, after every call to `relaxation_step`
(assuming no update drives a moment's magnitude to zero before
normalization), every site's moment vector has Euclidean norm equal to 1
(exactly, in the real-number model of the floats); normalization is
performed by the step on every site — no normalization of the input is
assumed. -/
theorem C1_unit_norm_after_step (c : VecConsts) (s s' : MicromagneticSystem)
    (mc : ℝ) (hWF : WF s) (hb : s.size < 2 ^ 64)
    (hstep : relaxation_step c s = some (s', mc))
    (hnz : ∀ j, j < s.size → (updVal c s j).dot (updVal c s j) ≠ 0) :
    ∀ j, j < s.size →
      Real.sqrt ((s'.magnetizations.getD j 0).dot (s'.magnetizations.getD j 0)) = 1 := by
  obtain ⟨hsz, hWF', hpt, hmc⟩ := relaxation_step_eq c s s' mc hWF hb hstep
  intro j hj
  rw [hpt j hj]
  exact nmz_unit (updVal c s j) (hnz j hj)

/-- Witness for C1 at the one-site system `sV1` under `cV1`. -/
theorem C1_unit_norm_after_step_w :
    ∃ (s' : MicromagneticSystem) (mc : ℝ),
      relaxation_step cV1 sV1 = some (s', mc) ∧
      ∀ j, j < sV1.size →
        Real.sqrt ((s'.magnetizations.getD j 0).dot (s'.magnetizations.getD j 0)) = 1 := by
  obtain ⟨s', mc, hstep, _, _, _, _⟩ :=
    relaxation_step_spec cV1 sV1 rfl (by norm_num [sV1]) (by norm_num [sV1])
  refine ⟨s', mc, hstep,
    C1_unit_norm_after_step cV1 sV1 s' mc rfl (by norm_num [sV1]) hstep ?_⟩
  intro j hj
  have hj1 : j < 1 := hj
  have hj0 : j = 0 := by omega
  subst hj0
  rw [updVal_cV1]
  unfold Vec3.dot
  norm_num

/-- Claim C5: `compute_effective_field` is a pure function of the moments
and the size (it cannot and does not mutate the system), and within a single
`relaxation_step` every site's update is computed from the field of the
*pre-update* moment array (Jacobi-style): the new moment at each site is the
normalization of the old moment plus the update taken from
`compute_effective_field` of the original state. -/
theorem C5_jacobi_update (c : VecConsts) (s s' : MicromagneticSystem)
    (mc : ℝ) (hWF : WF s) (hb : s.size < 2 ^ 64)
    (hstep : relaxation_step c s = some (s', mc)) :
    (∀ t : MicromagneticSystem, t.magnetizations = s.magnetizations →
      t.size = s.size → compute_effective_field c t = compute_effective_field c s) ∧
    ∃ h, compute_effective_field c s = some h ∧
      ∀ j, j < s.size → s'.magnetizations.getD j 0 =
        nmz (s.magnetizations.getD j 0 + chVal c (h.getD j 0)) := by
  have h1 : 1 ≤ s.size := one_le_size_of_step c s (s', mc) hstep
  obtain ⟨h, hrun, hlen, hptF⟩ := cef_spec c s hWF hb h1
  obtain ⟨hsz, hWF', hpt, hmc⟩ := relaxation_step_eq c s s' mc hWF hb hstep
  refine ⟨?_, h, hrun, ?_⟩
  · intro t hm hsz'
    obtain ⟨tm, tn⟩ := t
    obtain ⟨sm, sn⟩ := s
    simp only at hm hsz'
    subst hm
    subst hsz'
    rfl
  · intro j hj
    rw [hpt j hj, hptF j hj]
    rfl

/-- Witness for C5 at the one-site system `sV1` under `cV1`. -/
theorem C5_jacobi_update_w :
    ∃ (s' : MicromagneticSystem) (mc : ℝ) (h : List Vec3),
      relaxation_step cV1 sV1 = some (s', mc) ∧
      compute_effective_field cV1 sV1 = some h ∧
      ∀ j, j < sV1.size → s'.magnetizations.getD j 0 =
        nmz (sV1.magnetizations.getD j 0 + chVal cV1 (h.getD j 0)) := by
  obtain ⟨s', mc, hstep, _, _, _, _⟩ :=
    relaxation_step_spec cV1 sV1 rfl (by norm_num [sV1]) (by norm_num [sV1])
  obtain ⟨-, h, hrun, hpt⟩ :=
    C5_jacobi_update cV1 sV1 s' mc rfl (by norm_num [sV1]) hstep
  exact ⟨s', mc, h, hstep, hrun, hpt⟩

/-- Claim C6: in the dynamical (vector) variant, `compute_energy_change`
returns only the last site's contribution `-(H_eff[N-1]·Δm[N-1])·Ms·μ0`,
because each loop iteration overwrites the accumulator instead of adding to
it. -/
theorem C6_energy_change_last_site_only (c : VecConsts)
    (s : MicromagneticSystem) (hWF : WF s) (hb : s.size < 2 ^ 64)
    (h1 : 1 ≤ s.size) :
    ∃ h ch, compute_effective_field c s = some h ∧
      compute_magnetization_change c s = some ch ∧
      compute_energy_change c s =
        some (-((h.getD (s.size - 1) 0).dot (ch.getD (s.size - 1) 0)) * c.Ms * c.mu0) := by
  obtain ⟨h, hrun, hlen, hpt⟩ := cef_spec c s hWF hb h1
  obtain ⟨ch, hrunC, hlenC, hptC⟩ := cmc_spec c s hWF hb h1
  refine ⟨h, ch, hrun, hrunC, ?_⟩
  rw [hpt (s.size - 1) (by omega), hptC (s.size - 1) (by omega)]
  exact cec_spec c s hWF hb h1

/-- Witness for C6 at the one-site system `sV1` under `cV1`. -/
theorem C6_energy_change_last_site_only_w :
    ∃ h ch, compute_effective_field cV1 sV1 = some h ∧
      compute_magnetization_change cV1 sV1 = some ch ∧
      compute_energy_change cV1 sV1 =
        some (-((h.getD 0 0).dot (ch.getD 0 0)) * cV1.Ms * cV1.mu0) :=
  C6_energy_change_last_site_only cV1 sV1 rfl (by norm_num [sV1]) (by norm_num [sV1])

/-- Claim C9: `get_magnetizations` returns exactly N vectors, each with
exactly 3 components, for a system constructed with size N; it is a pure
read of the moment array (the Rust source returns a clone, modelled here by
value semantics). -/
theorem C9_snapshot_shape (s : MicromagneticSystem) (hWF : WF s) :
    get_magnetizations s = s.magnetizations ∧
    (get_magnetizations s).length = s.size ∧
    ∀ v ∈ get_magnetizations s, (Vec3.toList v).length = 3 := by
  refine ⟨rfl, ?_, ?_⟩
  · show s.magnetizations.length = s.size
    exact hWF
  · intro v _
    rfl

/-- Witness for C9 at the one-site system `sV1`. -/
theorem C9_snapshot_shape_w :
    get_magnetizations sV1 = sV1.magnetizations ∧
    (get_magnetizations sV1).length = sV1.size ∧
    ∀ v ∈ get_magnetizations sV1, (Vec3.toList v).length = 3 :=
  C9_snapshot_shape sV1 rfl

end MagneticMoments

/-- Claim C4: in both variants, the value returned by `relaxation_step`
equals the maximum, over all sites and (in the vector variant) all vector
components, of the absolute value of the update `Δm[i] = -α·γ·H_eff[i]·Ms`
computed before normalization: it bounds every per-component absolute
update, is attained at some site/component unless zero, is non-negative,
and is zero only if every site's update is exactly zero. -/
theorem C4_max_change_is_max
    (cv : MagneticMoments.VecConsts) (sv sv' : MagneticMoments.MicromagneticSystem)
    (mcv : ℝ) (hWFv : MagneticMoments.WF sv) (hbv : sv.size < 2 ^ 64)
    (hstepv : MagneticMoments.relaxation_step cv sv = some (sv', mcv))
    (cg : Grid.GridConsts) (sg sg' : Grid.GridSystem) (mcg : ℝ)
    (hWFg : Grid.WF sg) (hbg : sg.size < 2 ^ 64)
    (hstepg : Grid.relaxation_step cg sg = some (sg', mcg)) :
    (0 ≤ mcv ∧
      (∀ j, j < sv.size →
        |(MagneticMoments.chVal cv (MagneticMoments.heffD cv sv j)).x| ≤ mcv ∧
        |(MagneticMoments.chVal cv (MagneticMoments.heffD cv sv j)).y| ≤ mcv ∧
        |(MagneticMoments.chVal cv (MagneticMoments.heffD cv sv j)).z| ≤ mcv) ∧
      (mcv = 0 ∨ ∃ j, j < sv.size ∧
        (mcv = |(MagneticMoments.chVal cv (MagneticMoments.heffD cv sv j)).x| ∨
         mcv = |(MagneticMoments.chVal cv (MagneticMoments.heffD cv sv j)).y| ∨
         mcv = |(MagneticMoments.chVal cv (MagneticMoments.heffD cv sv j)).z|)) ∧
      (mcv = 0 → ∀ j, j < sv.size →
        MagneticMoments.chVal cv (MagneticMoments.heffD cv sv j) = 0)) ∧
    (0 ≤ mcg ∧
      (∀ j, j < sg.size → |Grid.chVal cg (Grid.heffD cg sg j)| ≤ mcg) ∧
      (mcg = 0 ∨ ∃ j, j < sg.size ∧ mcg = |Grid.chVal cg (Grid.heffD cg sg j)|) ∧
      (mcg = 0 → ∀ j, j < sg.size → Grid.chVal cg (Grid.heffD cg sg j) = 0)) := by
  obtain ⟨-, -, -, hmcv⟩ :=
    MagneticMoments.relaxation_step_eq cv sv sv' mcv hWFv hbv hstepv
  obtain ⟨-, -, -, hmcg⟩ :=
    Grid.relaxation_step_eq_scl cg sg sg' mcg hWFg hbg hstepg
  constructor
  · set f := fun i => MagneticMoments.vecMaxAbs
      (MagneticMoments.chVal cv (MagneticMoments.heffD cv sv i)) with hf
    have hmem : ∀ j, j < sv.size → j ∈ List.range' 0 sv.size := fun j hj =>
      List.mem_range'_1.mpr ⟨Nat.zero_le j, by omega⟩
    have hub : ∀ j, j < sv.size → f j ≤ mcv := fun j hj => by
      rw [hmcv]; exact le_foldMax_of_mem f _ 0 j (hmem j hj)
    refine ⟨?_, ?_, ?_, ?_⟩
    · rw [hmcv]; exact le_foldMax_self f _ 0
    · intro j hj
      obtain ⟨hx, hy, hz⟩ := MagneticMoments.abs_le_vecMaxAbs
        (MagneticMoments.chVal cv (MagneticMoments.heffD cv sv j))
      exact ⟨le_trans hx (hub j hj), le_trans hy (hub j hj), le_trans hz (hub j hj)⟩
    · rcases foldMax_eq_base_or_mem f (List.range' 0 sv.size) 0 with hbase | ⟨j, hjmem, hjeq⟩
      · exact Or.inl (by rw [hmcv]; exact hbase)
      · by_cases h0 : mcv = 0
        · exact Or.inl h0
        · have hj : j < sv.size := by
            have := List.mem_range'_1.mp hjmem; omega
          have hne : MagneticMoments.vecMaxAbs
              (MagneticMoments.chVal cv (MagneticMoments.heffD cv sv j)) ≠ 0 := by
            intro hz
            exact h0 (by rw [hmcv, hjeq]; exact hz)
          rcases MagneticMoments.vecMaxAbs_mem _ hne with hx | hy | hz
          · exact Or.inr ⟨j, hj, Or.inl (by rw [hmcv, hjeq]; exact hx)⟩
          · exact Or.inr ⟨j, hj, Or.inr (Or.inl (by rw [hmcv, hjeq]; exact hy))⟩
          · exact Or.inr ⟨j, hj, Or.inr (Or.inr (by rw [hmcv, hjeq]; exact hz))⟩
    · intro h0 j hj
      have hle : f j ≤ 0 := by rw [← h0]; exact hub j hj
      have hge : 0 ≤ f j := MagneticMoments.vecMaxAbs_nonneg _
      exact (MagneticMoments.vecMaxAbs_eq_zero_iff _).mp (le_antisymm hle hge)
  · set f := fun i => |Grid.chVal cg (Grid.heffD cg sg i)| with hf
    have hmem : ∀ j, j < sg.size → j ∈ List.range' 0 sg.size := fun j hj =>
      List.mem_range'_1.mpr ⟨Nat.zero_le j, by omega⟩
    have hub : ∀ j, j < sg.size → f j ≤ mcg := fun j hj => by
      rw [hmcg]; exact le_foldMax_of_mem f _ 0 j (hmem j hj)
    refine ⟨?_, hub, ?_, ?_⟩
    · rw [hmcg]; exact le_foldMax_self f _ 0
    · rcases foldMax_eq_base_or_mem f (List.range' 0 sg.size) 0 with hbase | ⟨j, hjmem, hjeq⟩
      · exact Or.inl (by rw [hmcg]; exact hbase)
      · have hj : j < sg.size := by
          have := List.mem_range'_1.mp hjmem; omega
        exact Or.inr ⟨j, hj, by rw [hmcg, hjeq]⟩
    · intro h0 j hj
      have hle : f j ≤ 0 := by rw [← h0]; exact hub j hj
      exact abs_eq_zero.mp (le_antisymm hle (abs_nonneg _))

/-- Witness for C4 at `sV1` under `cV1` and `sG1` under `cG1`. -/
theorem C4_max_change_is_max_w :
    ∃ (sv' : MagneticMoments.MicromagneticSystem) (mcv : ℝ)
      (sg' : Grid.GridSystem) (mcg : ℝ),
      MagneticMoments.relaxation_step MagneticMoments.cV1 MagneticMoments.sV1 =
        some (sv', mcv) ∧
      Grid.relaxation_step Grid.cG1 Grid.sG1 = some (sg', mcg) ∧
      0 ≤ mcv ∧ 0 ≤ mcg := by
  obtain ⟨sv', mcv, hstepv, -, -, -, -⟩ :=
    MagneticMoments.relaxation_step_spec MagneticMoments.cV1 MagneticMoments.sV1
      rfl (by norm_num [MagneticMoments.sV1]) (by norm_num [MagneticMoments.sV1])
  obtain ⟨sg', mcg, hstepg, -, -, -, -⟩ :=
    Grid.relaxation_step_spec_scl Grid.cG1 Grid.sG1 rfl (by norm_num [Grid.sG1]) (by norm_num [Grid.sG1])
  obtain ⟨⟨h1, -, -, -⟩, ⟨h2, -, -, -⟩⟩ :=
    C4_max_change_is_max MagneticMoments.cV1 MagneticMoments.sV1 sv' mcv
      rfl (by norm_num [MagneticMoments.sV1]) hstepv Grid.cG1 Grid.sG1 sg' mcg
      rfl (by norm_num [Grid.sG1]) hstepg
  exact ⟨sv', mcv, sg', mcg, hstepv, hstepg, h1, h2⟩

/-- Claim C3: in both variants, `minimize_energy` invokes `relaxation_step`
once per iteration starting from iteration counter 0; it terminates as
`converged i` when step `i` is the first whose `max_change` is below the
tolerance, otherwise as `maxIterationsReached` after exactly `maxIter`
steps; failure to converge raises no error, and in both outcomes the final
(possibly unconverged) state is returned to the caller. -/
theorem C3_convergence_loop
    (cv : MagneticMoments.VecConsts) (sv svf : MagneticMoments.MicromagneticSystem)
    (stv : Status)
    (hrunv : MagneticMoments.minimize_energy cv sv = some (svf, stv))
    (cg : Grid.GridConsts) (sg sgf : Grid.GridSystem) (stg : Status)
    (hrung : Grid.minimize_energy cg sg = some (sgf, stg)) :
    ((∀ i, stv = Status.converged i → i < cv.maxIter ∧
        (∃ sj r, stepN (MagneticMoments.relaxation_step cv) i sv = some sj ∧
          MagneticMoments.relaxation_step cv sj = some r ∧ r.2 < cv.tol ∧ svf = r.1) ∧
        (∀ j, j < i → ∃ sj r,
          stepN (MagneticMoments.relaxation_step cv) j sv = some sj ∧
          MagneticMoments.relaxation_step cv sj = some r ∧ ¬ r.2 < cv.tol)) ∧
      (stv = Status.maxIterationsReached →
        stepN (MagneticMoments.relaxation_step cv) cv.maxIter sv = some svf ∧
        ∀ j, j < cv.maxIter → ∃ sj r,
          stepN (MagneticMoments.relaxation_step cv) j sv = some sj ∧
          MagneticMoments.relaxation_step cv sj = some r ∧ ¬ r.2 < cv.tol)) ∧
    ((∀ i, stg = Status.converged i → i < cg.maxIter ∧
        (∃ sj r, stepN (Grid.relaxation_step cg) i sg = some sj ∧
          Grid.relaxation_step cg sj = some r ∧ r.2 < cg.tol ∧ sgf = r.1) ∧
        (∀ j, j < i → ∃ sj r,
          stepN (Grid.relaxation_step cg) j sg = some sj ∧
          Grid.relaxation_step cg sj = some r ∧ ¬ r.2 < cg.tol)) ∧
      (stg = Status.maxIterationsReached →
        stepN (Grid.relaxation_step cg) cg.maxIter sg = some sgf ∧
        ∀ j, j < cg.maxIter → ∃ sj r,
          stepN (Grid.relaxation_step cg) j sg = some sj ∧
          Grid.relaxation_step cg sj = some r ∧ ¬ r.2 < cg.tol)) := by
  obtain ⟨hconvV, hmaxV⟩ :=
    loopFrom_spec (MagneticMoments.relaxation_step cv) cv.tol cv.maxIter 0 sv svf stv hrunv
  obtain ⟨hconvG, hmaxG⟩ :=
    loopFrom_spec (Grid.relaxation_step cg) cg.tol cg.maxIter 0 sg sgf stg hrung
  constructor
  · constructor
    · intro i hi
      obtain ⟨j, hij, hjf, hstep, hprev⟩ := hconvV i hi
      have hji : j = i := by omega
      subst hji
      exact ⟨by omega, hstep, hprev⟩
    · exact hmaxV
  · constructor
    · intro i hi
      obtain ⟨j, hij, hjf, hstep, hprev⟩ := hconvG i hi
      have hji : j = i := by omega
      subst hji
      exact ⟨by omega, hstep, hprev⟩
    · exact hmaxG

/-- Witness for C3: concrete runs at `sV1`/`cV1` and `sG1`/`cG1`. -/
theorem C3_convergence_loop_w :
    ∃ (svf : MagneticMoments.MicromagneticSystem) (stv : Status)
      (sgf : Grid.GridSystem) (stg : Status),
      MagneticMoments.minimize_energy MagneticMoments.cV1 MagneticMoments.sV1 =
        some (svf, stv) ∧
      Grid.minimize_energy Grid.cG1 Grid.sG1 = some (sgf, stg) ∧
      (∀ i, stv = Status.converged i → i < MagneticMoments.cV1.maxIter) ∧
      (∀ i, stg = Status.converged i → i < Grid.cG1.maxIter) := by
  have hrunv : ∃ res, MagneticMoments.minimize_energy MagneticMoments.cV1
      MagneticMoments.sV1 = some res := by
    apply loopFrom_total (MagneticMoments.relaxation_step MagneticMoments.cV1)
      MagneticMoments.cV1.tol
      (fun t => MagneticMoments.WF t ∧ t.size = 1)
    · intro t ⟨hWF, hsz⟩
      obtain ⟨t', mc, hstep, hsz', hWF', -, -⟩ :=
        MagneticMoments.relaxation_step_spec MagneticMoments.cV1 t hWF
          (by rw [hsz]; norm_num) (by rw [hsz])
      exact ⟨(t', mc), hstep, hWF', by show t'.size = 1; rw [hsz', hsz]⟩
    · exact ⟨rfl, rfl⟩
  have hrung : ∃ res, Grid.minimize_energy Grid.cG1 Grid.sG1 = some res := by
    apply loopFrom_total (Grid.relaxation_step Grid.cG1) Grid.cG1.tol
      (fun t => Grid.WF t ∧ t.size = 1)
    · intro t ⟨hWF, hsz⟩
      obtain ⟨t', mc, hstep, hsz', hWF', -, -⟩ :=
        Grid.relaxation_step_spec_scl Grid.cG1 t hWF
          (by rw [hsz]; norm_num) (by rw [hsz])
      exact ⟨(t', mc), hstep, hWF', by show t'.size = 1; rw [hsz', hsz]⟩
    · exact ⟨rfl, rfl⟩
  obtain ⟨⟨svf, stv⟩, hrunv'⟩ := hrunv
  obtain ⟨⟨sgf, stg⟩, hrung'⟩ := hrung
  obtain ⟨⟨hcv, -⟩, ⟨hcg, -⟩⟩ :=
    C3_convergence_loop MagneticMoments.cV1 MagneticMoments.sV1 svf stv hrunv'
      Grid.cG1 Grid.sG1 sgf stg hrung'
  exact ⟨svf, stv, sgf, stg, hrunv', hrung',
    fun i hi => (hcv i hi).1, fun i hi => (hcg i hi).1⟩

/-- Claim C7: a single relaxation step applied to an already-normalized
field yields unit-norm vectors at every site whose post-update squared
magnitude is nonzero (vector variant) and components in `[-1, 1]` at every
site (scalar variant, by clamping); a site whose update drives its squared
magnitude to exactly zero is mapped by the division to the zero vector —
the only way the unit norm can fail (in the real-number model no NaN/Inf
values exist). -/
theorem C7_single_step_safety
    (cv : MagneticMoments.VecConsts) (sv sv' : MagneticMoments.MicromagneticSystem)
    (mcv : ℝ) (hWFv : MagneticMoments.WF sv) (hbv : sv.size < 2 ^ 64)
    (hnormv : ∀ j, j < sv.size →
      Real.sqrt ((sv.magnetizations.getD j 0).dot (sv.magnetizations.getD j 0)) = 1)
    (hstepv : MagneticMoments.relaxation_step cv sv = some (sv', mcv))
    (cg : Grid.GridConsts) (sg sg' : Grid.GridSystem) (mcg : ℝ)
    (hWFg : Grid.WF sg) (hbg : sg.size < 2 ^ 64)
    (hstepg : Grid.relaxation_step cg sg = some (sg', mcg)) :
    (∀ j, j < sv.size →
      ((MagneticMoments.updVal cv sv j).dot (MagneticMoments.updVal cv sv j) ≠ 0 →
        Real.sqrt ((sv'.magnetizations.getD j 0).dot (sv'.magnetizations.getD j 0)) = 1) ∧
      ((MagneticMoments.updVal cv sv j).dot (MagneticMoments.updVal cv sv j) = 0 →
        sv'.magnetizations.getD j 0 = 0)) ∧
    (∀ j, j < sg.size →
      -1 ≤ sg'.magnetization.getD j 0 ∧ sg'.magnetization.getD j 0 ≤ 1) := by
  obtain ⟨-, -, hptv, -⟩ :=
    MagneticMoments.relaxation_step_eq cv sv sv' mcv hWFv hbv hstepv
  obtain ⟨-, -, hptg, -⟩ :=
    Grid.relaxation_step_eq_scl cg sg sg' mcg hWFg hbg hstepg
  constructor
  · intro j hj
    constructor
    · intro hnz
      rw [hptv j hj]
      exact MagneticMoments.nmz_unit _ hnz
    · intro hz
      rw [hptv j hj]
      exact MagneticMoments.nmz_zero_of_dot_zero _ hz
  · intro j hj
    rw [hptg j hj]
    exact Grid.clampR_mem _

/-- Witness for C7 at `sV1`/`cV1` and `sG1`/`cG1`. -/
theorem C7_single_step_safety_w :
    ∃ (sv' : MagneticMoments.MicromagneticSystem) (mcv : ℝ)
      (sg' : Grid.GridSystem) (mcg : ℝ),
      MagneticMoments.relaxation_step MagneticMoments.cV1 MagneticMoments.sV1 =
        some (sv', mcv) ∧
      Grid.relaxation_step Grid.cG1 Grid.sG1 = some (sg', mcg) ∧
      (∀ j, j < Grid.sG1.size →
        -1 ≤ sg'.magnetization.getD j 0 ∧ sg'.magnetization.getD j 0 ≤ 1) := by
  obtain ⟨sv', mcv, hstepv, -, -, -, -⟩ :=
    MagneticMoments.relaxation_step_spec MagneticMoments.cV1 MagneticMoments.sV1
      rfl (by norm_num [MagneticMoments.sV1]) (by norm_num [MagneticMoments.sV1])
  obtain ⟨sg', mcg, hstepg, -, -, -, -⟩ :=
    Grid.relaxation_step_spec_scl Grid.cG1 Grid.sG1 rfl (by norm_num [Grid.sG1])
      (by norm_num [Grid.sG1])
  obtain ⟨-, hcl⟩ :=
    C7_single_step_safety MagneticMoments.cV1 MagneticMoments.sV1 sv' mcv
      rfl (by norm_num [MagneticMoments.sV1])
      (by
        intro j hj
        have hj1 : j < 1 := hj
        have hj0 : j = 0 := by omega
        subst hj0
        show Real.sqrt ((Vec3.mk 0 0 1).dot (Vec3.mk 0 0 1)) = 1
        unfold Vec3.dot
        norm_num)
      hstepv Grid.cG1 Grid.sG1 sg' mcg rfl (by norm_num [Grid.sG1]) hstepg
  exact ⟨sv', mcv, sg', mcg, hstepv, hstepg, hcl⟩

/-- Claim C8 is false as stated: under the configuration `cG1` (tolerance 1)
the one-cell state at `1/5` yields `max_change = 4/5 < 1`, but the next step
yields `max_change = 12/5 ≥ 1` — a step below tolerance does not keep the
system below tolerance. -/
theorem C8_counterexample :
    ∃ (s1 : Grid.GridSystem) (mc1 : ℝ) (s2 : Grid.GridSystem) (mc2 : ℝ),
      Grid.relaxation_step Grid.cG1 Grid.sG1 = some (s1, mc1) ∧
      mc1 < Grid.cG1.tol ∧
      Grid.relaxation_step Grid.cG1 s1 = some (s2, mc2) ∧
      ¬ mc2 < Grid.cG1.tol := by
  obtain ⟨s1, mc1, hstep1, hsz1, hWF1, hpt1, hmc1⟩ :=
    Grid.relaxation_step_spec_scl Grid.cG1 Grid.sG1 rfl (by norm_num [Grid.sG1])
      (by norm_num [Grid.sG1])
  have hmc1v : mc1 = 4 / 5 := by rw [hmc1]; exact Grid.mc_cG1
  have hsz1' : s1.size = 1 := hsz1
  have hs1 : s1.magnetization.getD 0 0 = -(3 / 5) := by
    have h := hpt1 0 (by norm_num [Grid.sG1])
    rw [Grid.updVal_cG1] at h
    rw [h]
    unfold Grid.clampR
    rw [max_eq_left (by norm_num), min_eq_left (by norm_num)]
  have hH : Grid.heffD Grid.cG1 s1 0 = -(12 / 5) := by
    unfold Grid.heffD Grid.anisoVal
    rw [if_neg (by omega), hs1]
    norm_num [Grid.cG1]
  obtain ⟨s2, mc2, hstep2, hsz2, hWF2, hpt2, hmc2⟩ :=
    Grid.relaxation_step_spec_scl Grid.cG1 s1 hWF1 (by rw [hsz1']; norm_num)
      (by rw [hsz1'])
  have hmc2v : mc2 = 12 / 5 := by
    rw [hmc2, show List.range' 0 s1.size = [0] from by rw [hsz1']; rfl,
      foldMax_cons, foldMax_nil, hH]
    unfold Grid.chVal
    norm_num [Grid.cG1]
  refine ⟨s1, mc1, s2, mc2, hstep1, ?_, hstep2, ?_⟩
  · rw [hmc1v]
    norm_num [Grid.cG1]
  · rw [hmc2v]
    norm_num [Grid.cG1]

/-- Amended claim C8: the fixed-point property holds for exact fixed points:
if a relaxation step returns `max_change = 0` on a state whose entries are
already in range (scalar: components in `[-1,1]`; vector: unit squared
magnitude), then one additional step again returns `max_change = 0` — hence
below any positive tolerance.  Merely `max_change < tolerance` does not
persist in general (see the counterexample). -/
theorem C8_fixed_point_amended
    (cg : Grid.GridConsts) (sg sg' : Grid.GridSystem)
    (hWFg : Grid.WF sg) (hbg : sg.size < 2 ^ 64)
    (hing : ∀ j, j < sg.size →
      -1 ≤ sg.magnetization.getD j 0 ∧ sg.magnetization.getD j 0 ≤ 1)
    (hstepg : Grid.relaxation_step cg sg = some (sg', 0))
    (cv : MagneticMoments.VecConsts) (sv sv' : MagneticMoments.MicromagneticSystem)
    (hWFv : MagneticMoments.WF sv) (hbv : sv.size < 2 ^ 64)
    (hinv : ∀ j, j < sv.size →
      (sv.magnetizations.getD j 0).dot (sv.magnetizations.getD j 0) = 1)
    (hstepv : MagneticMoments.relaxation_step cv sv = some (sv', 0)) :
    (∃ sg'', Grid.relaxation_step cg sg' = some (sg'', 0)) ∧
    (∃ sv'', MagneticMoments.relaxation_step cv sv' = some (sv'', 0)) := by
  constructor
  · -- scalar variant
    have h1g : 1 ≤ sg.size := Grid.one_le_size_of_step_scl cg sg (sg', 0) hstepg
    obtain ⟨hszg, hWFg', hptg, hmcg⟩ :=
      Grid.relaxation_step_eq_scl cg sg sg' 0 hWFg hbg hstepg
    have hch0 : ∀ j, j < sg.size → Grid.chVal cg (Grid.heffD cg sg j) = 0 := by
      intro j hj
      have hmem : j ∈ List.range' 0 sg.size :=
        List.mem_range'_1.mpr ⟨Nat.zero_le j, by omega⟩
      have hle := le_foldMax_of_mem
        (fun i => |Grid.chVal cg (Grid.heffD cg sg i)|) (List.range' 0 sg.size) 0 j hmem
      rw [← hmcg] at hle
      exact abs_eq_zero.mp (le_antisymm hle (abs_nonneg _))
    have hpteq : ∀ j, j < sg.size →
        sg'.magnetization.getD j 0 = sg.magnetization.getD j 0 := by
      intro j hj
      rw [hptg j hj]
      unfold Grid.updVal
      rw [hch0 j hj, add_zero]
      exact Grid.clampR_eq_self _ (hing j hj).1 (hing j hj).2
    have hH := Grid.heffD_congr_scl cg sg sg' hszg hpteq
    obtain ⟨sg'', mc2, hstep2, -, -, -, hmc2⟩ :=
      Grid.relaxation_step_spec_scl cg sg' hWFg' (by rw [hszg]; exact hbg)
        (by rw [hszg]; exact h1g)
    have hmc2v : mc2 = 0 := by
      rw [hmc2, hszg]
      rw [foldMax_congr _ (fun i => |Grid.chVal cg (Grid.heffD cg sg i)|) _ _
        (fun i hi => by
          rw [hH i (by have := List.mem_range'_1.mp hi; omega)])]
      refine le_antisymm ?_ (le_foldMax_self _ _ _)
      refine foldMax_le _ _ _ _ (le_refl 0) ?_
      intro i hi
      rw [hch0 i (by have := List.mem_range'_1.mp hi; omega)]
      simp
    rw [hmc2v] at hstep2
    exact ⟨sg'', hstep2⟩
  · -- vector variant
    have h1v : 1 ≤ sv.size := MagneticMoments.one_le_size_of_step cv sv (sv', 0) hstepv
    obtain ⟨hszv, hWFv', hptv, hmcv⟩ :=
      MagneticMoments.relaxation_step_eq cv sv sv' 0 hWFv hbv hstepv
    have hch0 : ∀ j, j < sv.size →
        MagneticMoments.chVal cv (MagneticMoments.heffD cv sv j) = 0 := by
      intro j hj
      have hmem : j ∈ List.range' 0 sv.size :=
        List.mem_range'_1.mpr ⟨Nat.zero_le j, by omega⟩
      have hle := le_foldMax_of_mem
        (fun i => MagneticMoments.vecMaxAbs
          (MagneticMoments.chVal cv (MagneticMoments.heffD cv sv i)))
        (List.range' 0 sv.size) 0 j hmem
      rw [← hmcv] at hle
      exact (MagneticMoments.vecMaxAbs_eq_zero_iff _).mp
        (le_antisymm hle (MagneticMoments.vecMaxAbs_nonneg _))
    have hpteq : ∀ j, j < sv.size →
        sv'.magnetizations.getD j 0 = sv.magnetizations.getD j 0 := by
      intro j hj
      rw [hptv j hj]
      unfold MagneticMoments.updVal
      rw [hch0 j hj, Vec3.add_zero]
      exact MagneticMoments.nmz_of_dot_one _ (hinv j hj)
    have hH := MagneticMoments.heffD_congr cv sv sv' hszv hpteq
    obtain ⟨sv'', mc2, hstep2, -, -, -, hmc2⟩ :=
      MagneticMoments.relaxation_step_spec cv sv' hWFv' (by rw [hszv]; exact hbv)
        (by rw [hszv]; exact h1v)
    have hmc2v : mc2 = 0 := by
      rw [hmc2, hszv]
      rw [foldMax_congr _ (fun i => MagneticMoments.vecMaxAbs
          (MagneticMoments.chVal cv (MagneticMoments.heffD cv sv i))) _ _
        (fun i hi => by
          rw [hH i (by have := List.mem_range'_1.mp hi; omega)])]
      refine le_antisymm ?_ (le_foldMax_self _ _ _)
      refine foldMax_le _ _ _ _ (le_refl 0) ?_
      intro i hi
      rw [hch0 i (by have := List.mem_range'_1.mp hi; omega)]
      rw [(MagneticMoments.vecMaxAbs_eq_zero_iff 0).mpr rfl]
    rw [hmc2v] at hstep2
    exact ⟨sv'', hstep2⟩

/-- Witness for the amended C8 at the field-free configurations `cG0`/`sG0`
and `cV0`/`sV1`. -/
theorem C8_fixed_point_amended_w :
    ∃ (sg' sg'' : Grid.GridSystem)
      (sv' sv'' : MagneticMoments.MicromagneticSystem),
      Grid.relaxation_step Grid.cG0 Grid.sG0 = some (sg', 0) ∧
      Grid.relaxation_step Grid.cG0 sg' = some (sg'', 0) ∧
      MagneticMoments.relaxation_step MagneticMoments.cV0 MagneticMoments.sV1 =
        some (sv', 0) ∧
      MagneticMoments.relaxation_step MagneticMoments.cV0 sv' = some (sv'', 0) := by
  obtain ⟨sg', mcg, hstepg, -, -, -, hmcg⟩ :=
    Grid.relaxation_step_spec_scl Grid.cG0 Grid.sG0 rfl (by norm_num [Grid.sG0])
      (by norm_num [Grid.sG0])
  have hmcg0 : mcg = 0 := by rw [hmcg]; exact Grid.mc_cG0
  rw [hmcg0] at hstepg
  obtain ⟨sv', mcv, hstepv, -, -, -, hmcv⟩ :=
    MagneticMoments.relaxation_step_spec MagneticMoments.cV0 MagneticMoments.sV1
      rfl (by norm_num [MagneticMoments.sV1]) (by norm_num [MagneticMoments.sV1])
  have hmcv0 : mcv = 0 := by rw [hmcv]; exact MagneticMoments.mc_cV0
  rw [hmcv0] at hstepv
  obtain ⟨⟨sg'', hg⟩, ⟨sv'', hv⟩⟩ :=
    C8_fixed_point_amended Grid.cG0 Grid.sG0 sg' rfl (by norm_num [Grid.sG0])
      (by
        intro j hj
        have hj1 : j < 1 := hj
        have hj0 : j = 0 := by omega
        subst hj0
        show -1 ≤ ([(1 : ℝ) / 2].getD 0 0) ∧ ([(1 : ℝ) / 2].getD 0 0) ≤ 1
        norm_num)
      hstepg MagneticMoments.cV0 MagneticMoments.sV1 sv' rfl
      (by norm_num [MagneticMoments.sV1])
      (by
        intro j hj
        have hj1 : j < 1 := hj
        have hj0 : j = 0 := by omega
        subst hj0
        show (Vec3.mk 0 0 1).dot (Vec3.mk 0 0 1) = 1
        unfold Vec3.dot
        norm_num)
      hstepv
  exact ⟨sg', sg'', sv', sv'', hstepg, hg, hstepv, hv⟩

/-- Claim C10: for any well-formed system of size at least 1, every array
access of the field computation is in bounds — `compute_effective_field`
returns a field of length `size`, and `relaxation_step` and
`minimize_energy` return results; for a system of size 0 the `usize` loop
bound `size - 1` underflows, the first exchange-loop access is out of
bounds, and `compute_effective_field` (hence `relaxation_step`) is not
total. -/
theorem C10_in_bounds_and_size_zero
    (cv : MagneticMoments.VecConsts) (sv : MagneticMoments.MicromagneticSystem)
    (hWFv : MagneticMoments.WF sv) (hbv : sv.size < 2 ^ 64)
    (cg : Grid.GridConsts) (sg : Grid.GridSystem)
    (hWFg : Grid.WF sg) (hbg : sg.size < 2 ^ 64) :
    (1 ≤ sv.size →
      (∃ h, MagneticMoments.compute_effective_field cv sv = some h ∧
        h.length = sv.size) ∧
      (∃ r, MagneticMoments.relaxation_step cv sv = some r) ∧
      (∃ res, MagneticMoments.minimize_energy cv sv = some res)) ∧
    (sv.size = 0 →
      MagneticMoments.compute_effective_field cv sv = none ∧
      MagneticMoments.relaxation_step cv sv = none) ∧
    (1 ≤ sg.size →
      (∃ h, Grid.compute_effective_field cg sg = some h ∧ h.length = sg.size) ∧
      (∃ r, Grid.relaxation_step cg sg = some r) ∧
      (∃ res, Grid.minimize_energy cg sg = some res)) ∧
    (sg.size = 0 →
      Grid.compute_effective_field cg sg = none ∧
      Grid.relaxation_step cg sg = none) := by
  refine ⟨?_, ?_, ?_, ?_⟩
  · intro h1
    obtain ⟨h, hrun, hlen, -⟩ := MagneticMoments.cef_spec cv sv hWFv hbv h1
    obtain ⟨sv', mc, hstep, -, -, -, -⟩ :=
      MagneticMoments.relaxation_step_spec cv sv hWFv hbv h1
    have htot : ∃ res, MagneticMoments.minimize_energy cv sv = some res := by
      apply loopFrom_total (MagneticMoments.relaxation_step cv) cv.tol
        (fun t => MagneticMoments.WF t ∧ t.size = sv.size)
      · intro t ⟨hW, hsz⟩
        obtain ⟨t', mc', hst, hsz', hW', -, -⟩ :=
          MagneticMoments.relaxation_step_spec cv t hW (by rw [hsz]; exact hbv)
            (by rw [hsz]; exact h1)
        exact ⟨(t', mc'), hst, hW', by show t'.size = sv.size; rw [hsz', hsz]⟩
      · exact ⟨hWFv, rfl⟩
    exact ⟨⟨h, hrun, hlen⟩, ⟨(sv', mc), hstep⟩, htot⟩
  · intro h0
    exact ⟨MagneticMoments.cef_size_zero cv sv h0,
      MagneticMoments.relaxation_step_size_zero cv sv h0⟩
  · intro h1
    obtain ⟨h, hrun, hlen, -⟩ := Grid.cef_spec_scl cg sg hWFg hbg h1
    obtain ⟨sg', mc, hstep, -, -, -, -⟩ :=
      Grid.relaxation_step_spec_scl cg sg hWFg hbg h1
    have htot : ∃ res, Grid.minimize_energy cg sg = some res := by
      apply loopFrom_total (Grid.relaxation_step cg) cg.tol
        (fun t => Grid.WF t ∧ t.size = sg.size)
      · intro t ⟨hW, hsz⟩
        obtain ⟨t', mc', hst, hsz', hW', -, -⟩ :=
          Grid.relaxation_step_spec_scl cg t hW (by rw [hsz]; exact hbg)
            (by rw [hsz]; exact h1)
        exact ⟨(t', mc'), hst, hW', by show t'.size = sg.size; rw [hsz', hsz]⟩
      · exact ⟨hWFg, rfl⟩
    exact ⟨⟨h, hrun, hlen⟩, ⟨(sg', mc), hstep⟩, htot⟩
  · intro h0
    exact ⟨Grid.cef_size_zero_scl cg sg h0,
      Grid.relaxation_step_size_zero_scl cg sg h0⟩

/-- Witness for C10: at the size-0 systems the field computation and the
relaxation step return `none`. -/
theorem C10_in_bounds_and_size_zero_w :
    MagneticMoments.compute_effective_field MagneticMoments.cV1 MagneticMoments.sVE
      = none ∧
    MagneticMoments.relaxation_step MagneticMoments.cV1 MagneticMoments.sVE = none ∧
    Grid.compute_effective_field Grid.cG1 Grid.sGE = none ∧
    Grid.relaxation_step Grid.cG1 Grid.sGE = none := by
  obtain ⟨-, hv, -, hg⟩ :=
    C10_in_bounds_and_size_zero MagneticMoments.cV1 MagneticMoments.sVE rfl
      (by norm_num [MagneticMoments.sVE]) Grid.cG1 Grid.sGE rfl
      (by norm_num [Grid.sGE])
  obtain ⟨h1, h2⟩ := hv rfl
  obtain ⟨h3, h4⟩ := hg rfl
  exact ⟨h1, h2, h3, h4⟩

namespace MagneticMoments

/-- For nonzero constants, the vector exchange contribution vanishes exactly
when the discrete second difference vanishes. -/
theorem exchVal_zero_iff (c : VecConsts) (mp mi mm : Vec3)
    (hA : c.A ≠ 0) (hMs : c.Ms ≠ 0) (hmu : c.mu0 ≠ 0) (hdx : c.dx ≠ 0) :
    exchVal c mp mi mm = 0 ↔ mp - (2:ℝ) • mi + mm = 0 := by
  have hk : 2 * c.A / (c.Ms * c.mu0) ≠ 0 :=
    div_ne_zero (mul_ne_zero two_ne_zero hA) (mul_ne_zero hMs hmu)
  have hd : c.dx * c.dx ≠ 0 := mul_ne_zero hdx hdx
  unfold exchVal
  constructor
  · intro h
    have hx := congrArg Vec3.x h
    have hy := congrArg Vec3.y h
    have hz := congrArg Vec3.z h
    simp only [Vec3.sdiv_x, Vec3.sdiv_y, Vec3.sdiv_z, Vec3.smul_x, Vec3.smul_y,
      Vec3.smul_z, Vec3.zero_x, Vec3.zero_y, Vec3.zero_z] at hx hy hz
    have hcomp : ∀ t : ℝ, 2 * c.A / (c.Ms * c.mu0) * t / (c.dx * c.dx) = 0 → t = 0 := by
      intro t ht
      rcases div_eq_zero_iff.mp ht with h' | h'
      · rcases mul_eq_zero.mp h' with h'' | h''
        · exact absurd h'' hk
        · exact h''
      · exact absurd h' hd
    ext
    · exact hcomp _ hx
    · exact hcomp _ hy
    · exact hcomp _ hz
  · intro h
    rw [h]
    ext <;> simp [Vec3.sdiv]

end MagneticMoments

namespace Grid

/-- For nonzero constants, the scalar exchange contribution vanishes exactly
when the discrete second difference vanishes. -/
theorem exchVal_zero_iff_scl (c : GridConsts) (mp mi mm : ℝ)
    (hA : c.A ≠ 0) (hMs : c.Ms ≠ 0) (hdx : c.dx ≠ 0) :
    exchVal c mp mi mm = 0 ↔ mp - 2 * mi + mm = 0 := by
  have hk : 2 * c.A / c.Ms ≠ 0 := div_ne_zero (mul_ne_zero two_ne_zero hA) hMs
  have hd : c.dx * c.dx ≠ 0 := mul_ne_zero hdx hdx
  unfold exchVal
  constructor
  · intro h
    rcases div_eq_zero_iff.mp h with h' | h'
    · rcases mul_eq_zero.mp h' with h'' | h''
      · exact absurd h'' hk
      · exact h''
    · exact absurd h' hd
  · intro h
    rw [h, mul_zero, zero_div]

end Grid

/-- Amended claim C2: for every system with N ≥ 3, in both variants the
boundary sites 0 and N−1 receive no exchange contribution (their field is
anisotropy plus Zeeman only); at each interior site the field carries an
exchange contribution of the second-difference form — with coefficient
`2·A/Ms` in the scalar variant, exactly as the claim's formula states, but
`2·A/(Ms·μ0)` in the vector variant — and (for nonzero constants) that
contribution is zero exactly when `m[i+1] − 2·m[i] + m[i−1] = 0`, which can
happen even when the neighboring moments differ. -/
theorem C2_exchange_field_amended
    (cv : MagneticMoments.VecConsts) (sv : MagneticMoments.MicromagneticSystem)
    (hWFv : MagneticMoments.WF sv) (hbv : sv.size < 2 ^ 64) (h3v : 3 ≤ sv.size)
    (cg : Grid.GridConsts) (sg : Grid.GridSystem)
    (hWFg : Grid.WF sg) (hbg : sg.size < 2 ^ 64) (h3g : 3 ≤ sg.size) :
    (∃ h, MagneticMoments.compute_effective_field cv sv = some h ∧
      h.length = sv.size ∧
      h.getD 0 0 = MagneticMoments.anisoVal cv (sv.magnetizations.getD 0 0) +
        MagneticMoments.zeeVal cv ∧
      h.getD (sv.size - 1) 0 =
        MagneticMoments.anisoVal cv (sv.magnetizations.getD (sv.size - 1) 0) +
        MagneticMoments.zeeVal cv ∧
      ∀ i, 1 ≤ i → i + 1 < sv.size →
        h.getD i 0 = MagneticMoments.exchVal cv (sv.magnetizations.getD (i + 1) 0)
            (sv.magnetizations.getD i 0) (sv.magnetizations.getD (i - 1) 0) +
          MagneticMoments.anisoVal cv (sv.magnetizations.getD i 0) +
          MagneticMoments.zeeVal cv ∧
        (cv.A ≠ 0 → cv.Ms ≠ 0 → cv.mu0 ≠ 0 → cv.dx ≠ 0 →
          (MagneticMoments.exchVal cv (sv.magnetizations.getD (i + 1) 0)
              (sv.magnetizations.getD i 0) (sv.magnetizations.getD (i - 1) 0) = 0 ↔
            sv.magnetizations.getD (i + 1) 0 - (2:ℝ) • sv.magnetizations.getD i 0 +
              sv.magnetizations.getD (i - 1) 0 = 0))) ∧
    (∃ h, Grid.compute_effective_field cg sg = some h ∧ h.length = sg.size ∧
      h.getD 0 0 = Grid.anisoVal cg (sg.magnetization.getD 0 0) + cg.hext ∧
      h.getD (sg.size - 1) 0 =
        Grid.anisoVal cg (sg.magnetization.getD (sg.size - 1) 0) + cg.hext ∧
      ∀ i, 1 ≤ i → i + 1 < sg.size →
        h.getD i 0 = (2 * cg.A / cg.Ms) * (sg.magnetization.getD (i + 1) 0 -
            2 * sg.magnetization.getD i 0 + sg.magnetization.getD (i - 1) 0) /
            (cg.dx * cg.dx) +
          Grid.anisoVal cg (sg.magnetization.getD i 0) + cg.hext ∧
        (cg.A ≠ 0 → cg.Ms ≠ 0 → cg.dx ≠ 0 →
          ((2 * cg.A / cg.Ms) * (sg.magnetization.getD (i + 1) 0 -
              2 * sg.magnetization.getD i 0 + sg.magnetization.getD (i - 1) 0) /
              (cg.dx * cg.dx) = 0 ↔
            sg.magnetization.getD (i + 1) 0 - 2 * sg.magnetization.getD i 0 +
              sg.magnetization.getD (i - 1) 0 = 0))) := by
  constructor
  · obtain ⟨h, hrun, hlen, hpt⟩ :=
      MagneticMoments.cef_spec cv sv hWFv hbv (by omega)
    refine ⟨h, hrun, hlen, ?_, ?_, ?_⟩
    · rw [hpt 0 (by omega)]
      unfold MagneticMoments.heffD
      rw [if_neg (by omega), Vec3.zero_add]
    · rw [hpt (sv.size - 1) (by omega)]
      unfold MagneticMoments.heffD
      rw [if_neg (by omega), Vec3.zero_add]
    · intro i hi1 hi2
      constructor
      · rw [hpt i (by omega)]
        unfold MagneticMoments.heffD
        rw [if_pos ⟨hi1, hi2⟩]
      · intro hA hMs hmu hdx
        exact MagneticMoments.exchVal_zero_iff cv _ _ _ hA hMs hmu hdx
  · obtain ⟨h, hrun, hlen, hpt⟩ := Grid.cef_spec_scl cg sg hWFg hbg (by omega)
    refine ⟨h, hrun, hlen, ?_, ?_, ?_⟩
    · rw [hpt 0 (by omega)]
      unfold Grid.heffD
      rw [if_neg (by omega), zero_add]
    · rw [hpt (sg.size - 1) (by omega)]
      unfold Grid.heffD
      rw [if_neg (by omega), zero_add]
    · intro i hi1 hi2
      constructor
      · rw [hpt i (by omega)]
        unfold Grid.heffD Grid.exchVal
        rw [if_pos ⟨hi1, hi2⟩]
      · intro hA hMs hdx
        exact Grid.exchVal_zero_iff_scl cg _ _ _ hA hMs hdx

/-- Witness for the amended C2 at the three-site systems `sV3` (under the
actual constants of `main.rs`) and `sG3` (under `cG1`). -/
theorem C2_exchange_field_amended_w :
    (∃ h, MagneticMoments.compute_effective_field MagneticMoments.mainConsts
        MagneticMoments.sV3 = some h ∧ h.length = MagneticMoments.sV3.size) ∧
    (∃ h, Grid.compute_effective_field Grid.cG1 Grid.sG3 = some h ∧
      h.length = Grid.sG3.size) := by
  obtain ⟨⟨h1, hr1, hl1, -, -, -⟩, ⟨h2, hr2, hl2, -, -, -⟩⟩ :=
    C2_exchange_field_amended MagneticMoments.mainConsts MagneticMoments.sV3 rfl
      (by norm_num [MagneticMoments.sV3]) (by norm_num [MagneticMoments.sV3])
      Grid.cG1 Grid.sG3 rfl (by norm_num [Grid.sG3]) (by norm_num [Grid.sG3])
  exact ⟨⟨h1, hr1, hl1⟩, ⟨h2, hr2, hl2⟩⟩

/-- Claim C2 is false as stated: (i) with the constants of `main.rs`, the
vector variant's interior exchange contribution at the state of the spec's
scenario 2 differs from the claimed `(2·A/Ms)·(m[i+1] − 2·m[i] + m[i−1])/Δx²`
— the code divides additionally by `μ0 = 4π·10⁻⁷ ≠ 1`; (ii) in the scalar
variant, the linear ramp `[0, 1/2, 1]` has pairwise different moments around
the interior site, yet the site's effective field equals the
anisotropy-plus-Zeeman value: the exchange contribution is zero although the
neighboring moments differ. -/
theorem C2_counterexample :
    (MagneticMoments.exchVal MagneticMoments.mainConsts ⟨1, 0, 0⟩ ⟨0, 1, 0⟩ ⟨1, 0, 0⟩ ≠
      Vec3.sdiv ((2 * MagneticMoments.mainConsts.A / MagneticMoments.mainConsts.Ms) •
        ((⟨1, 0, 0⟩ : Vec3) - (2:ℝ) • ⟨0, 1, 0⟩ + ⟨1, 0, 0⟩))
        (MagneticMoments.mainConsts.dx * MagneticMoments.mainConsts.dx)) ∧
    (∃ h, Grid.compute_effective_field Grid.cG1 Grid.sG3 = some h ∧
      Grid.sG3.magnetization.getD 0 0 ≠ Grid.sG3.magnetization.getD 2 0 ∧
      Grid.sG3.magnetization.getD 0 0 ≠ Grid.sG3.magnetization.getD 1 0 ∧
      Grid.sG3.magnetization.getD 2 0 ≠ Grid.sG3.magnetization.getD 1 0 ∧
      h.getD 1 0 = Grid.anisoVal Grid.cG1 (Grid.sG3.magnetization.getD 1 0) +
        Grid.cG1.hext) := by
  constructor
  · intro heq
    have hx := congrArg Vec3.x heq
    unfold MagneticMoments.exchVal MagneticMoments.mainConsts at hx
    simp only [Vec3.sdiv_x, Vec3.smul_x, Vec3.add_x, Vec3.sub_x, Vec3.mk_x] at hx
    have hpi1 : Real.pi < 3.15 := Real.pi_lt_d2
    have hpi2 : 3 < Real.pi := Real.pi_gt_three
    field_simp at hx
    nlinarith [hx, hpi1, hpi2]
  · obtain ⟨h, hrun, hlen, hpt⟩ := Grid.cef_spec_scl Grid.cG1 Grid.sG3 rfl
      (by norm_num [Grid.sG3]) (by norm_num [Grid.sG3])
    refine ⟨h, hrun, by norm_num [Grid.sG3], by norm_num [Grid.sG3],
      by norm_num [Grid.sG3], ?_⟩
    rw [hpt 1 (by norm_num [Grid.sG3])]
    unfold Grid.heffD
    rw [if_pos (by constructor <;> norm_num [Grid.sG3])]
    have hexch : Grid.exchVal Grid.cG1 (Grid.sG3.magnetization.getD 2 0)
        (Grid.sG3.magnetization.getD 1 0) (Grid.sG3.magnetization.getD 0 0) = 0 := by
      unfold Grid.exchVal
      norm_num [Grid.cG1, Grid.sG3]
    rw [hexch, zero_add]

end EnergyRelaxation
